import Mathlib

/-!
# LnPAL2: event queue, event encoder, key translator and frame conversion

A shallow embedding of `src/LnPAL2.c`.  The C globals become the fields of one
record `State`; every C function becomes a Lean function of the same name that
takes the state and returns the new one.  Conventions:

* `uint16_t`/`uint32_t` values are `Nat`, reduced `% 2^16` / `% 2^32` wherever
  the C code converts or wraps;
* `int` values that can be negative (`x`, `y`, `WIDTH`, `HEIGHT`, `buflen`,
  the modifier flags, `down`) are `Int`; the queue indices `head`, `tail`,
  `count` are `Nat` (they are never negative in the C program); the `int`
  product `WIDTH * HEIGHT` of the length check wraps around to 32 bits;
* a `char` is the `Nat` value of its byte (0..255);
* `assert` failures and out-of-bounds stores end the run: such functions
  return `Except Fault _`;
* the host clock `SDL_GetTicks` is an arbitrary stream `clk : Nat → Nat`; the
  state counts the readings taken so far in `reads`.
-/

namespace LnPAL2

/-! ## Constants and the state record -/

/-- Capacity of the event queue: `QueueLen = 100`. -/
def QueueLen : Nat := 100

/-- Largest value of a 12 bit field: `enum { MaxPos = 0xfff }`. -/
def MaxPos : Nat := 0xfff

/-- Number of 32 bit pixels that fit `static uint8_t pixelBuf[2000*2000]`. -/
def PixelBufLen : Nat := 2000 * 2000 / 4

/-- The six tags of `enum EventType`. -/
inductive EventType where
  | DeltaTime
  | XLocation
  | YLocation
  | BiStateOn
  | BiStateOff
  | AbsoluteTime
  deriving DecidableEq, Repr

/-- Numeric value of an `EventType` enumerator. -/
def EventType.code : EventType → Nat
  | .DeltaTime => 0
  | .XLocation => 1
  | .YLocation => 2
  | .BiStateOn => 3
  | .BiStateOff => 4
  | .AbsoluteTime => 5

/-- The values of `enum MousButton`. -/
def LeftButton : Nat := 130
def MidButton : Nat := 128
def RightButton : Nat := 129

/-- Ways in which a run of the C program stops being defined. -/
inductive Fault where
  | assertFailed
  | outOfBounds
  deriving DecidableEq, Repr

/-- The file-scope variables of `LnPAL2.c`.  `window` records whether the window
pointer is non-null; `pixelBuf` is indexed by 32 bit pixel; `reads` counts
the calls of `PAL2_getTime` made so far. -/
structure State where
  window : Bool
  buffer : List Nat
  buflen : Int
  pixelBuf : Nat → Nat
  queue : List Nat
  head : Nat
  tail : Nat
  count : Nat
  sleepTime : Int
  x : Int
  y : Int
  WIDTH : Int
  HEIGHT : Int
  lastEvent : Nat
  shiftDown : Int
  ctrlDown : Int
  capsLockDown : Int
  reads : Nat

/-- The state at program start: all statics are zero-initialised. -/
def init : State where
  window := false
  buffer := []
  buflen := 0
  pixelBuf := fun _ => 0
  queue := List.replicate QueueLen 0
  head := 0
  tail := 0
  count := 0
  sleepTime := 0
  x := 0
  y := 0
  WIDTH := 0
  HEIGHT := 0
  lastEvent := 0
  shiftDown := 0
  ctrlDown := 0
  capsLockDown := 0
  reads := 0

/-! ## Event queue -/

/-- `enqueue(c)`: drop the word when the queue is full, else store it at
`head` and advance `head` modulo `QueueLen`. -/
def enqueue (c : Nat) (s : State) : State :=
  if s.count = QueueLen then s
  else
    { s with
      count := s.count + 1
      queue := s.queue.set s.head c
      head := (s.head + 1) % QueueLen }

/-- `dequeue()`: return 0 when the queue is empty, else the word at `tail`,
advancing `tail` modulo `QueueLen`. -/
def dequeue (s : State) : Nat × State :=
  if s.count = 0 then (0, s)
  else
    (s.queue.getD s.tail 0,
      { s with
        count := s.count - 1
        tail := (s.tail + 1) % QueueLen })

/-- `PAL2_nextEvent()` forwards to `dequeue`. -/
def PAL2_nextEvent (s : State) : Nat × State :=
  dequeue s

/-- `compose(t, p)`: `t << 12 | p`, converted to `uint16_t`.  The arguments
are a `uint8_t` and a `uint16_t`. -/
def compose (t p : Nat) : Nat :=
  ((t <<< 12) ||| p) % 2 ^ 16

/-- `PAL2_getTime()`: the next reading of the millisecond clock, a
`uint32_t`. -/
def PAL2_getTime (clk : Nat → Nat) (s : State) : Nat × State :=
  (clk s.reads % 2 ^ 32, { s with reads := s.reads + 1 })

/-- The timestamp part of `postEvent` (the body of `if( withTime )`). -/
def postTime (clk : Nat → Nat) (s : State) : State :=
  let time := (PAL2_getTime clk s).1
  let s1 := (PAL2_getTime clk s).2
  let diff := (time + 2 ^ 32 - s1.lastEvent) % 2 ^ 32
  let s2 := { s1 with lastEvent := time }
  if diff ≤ MaxPos then
    enqueue (compose EventType.DeltaTime.code diff) s2
  else
    enqueue (time &&& 0xffff)
      (enqueue ((time >>> 16) &&& 0xffff)
        (enqueue (compose EventType.AbsoluteTime.code 0) s2))

/-- `postEvent(t, param, withTime)`. -/
def postEvent (clk : Nat → Nat) (t : EventType) (param : Nat) (withTime : Int)
    (s : State) : Except Fault (Int × State) :=
  if EventType.XLocation.code ≤ t.code ∧ t.code ≤ EventType.BiStateOff.code then
    let s1 := if withTime ≠ 0 then postTime clk s else s
    .ok (1, enqueue (compose t.code param) s1)
  else
    .error .assertFailed

/-! ## Key translator -/

/-- `toAltoUpper(ch)`: the unshifted base key of a shifted character, or 0. -/
def toAltoUpper (ch : Nat) : Nat :=
  if ch = '+'.toNat then '='.toNat
  else if ch = '_'.toNat then '-'.toNat
  else if ch = '|'.toNat then '\\'.toNat
  else if ch = '{'.toNat then '['.toNat
  else if ch = '}'.toNat then ']'.toNat
  else if ch = ':'.toNat then ';'.toNat
  else if ch = '"'.toNat then '\''.toNat
  else if ch = '<'.toNat then ','.toNat
  else if ch = '>'.toNat then '.'.toNat
  else if ch = '?'.toNat then '/'.toNat
  else if ch = '!'.toNat then '1'.toNat
  else if ch = '@'.toNat then '2'.toNat
  else if ch = '#'.toNat then '3'.toNat
  else if ch = '$'.toNat then '4'.toNat
  else if ch = '%'.toNat then '5'.toNat
  else if ch = '~'.toNat then '6'.toNat
  else if ch = '&'.toNat then '7'.toNat
  else if ch = '*'.toNat then '8'.toNat
  else if ch = '('.toNat then '9'.toNat
  else if ch = ')'.toNat then '0'.toNat
  else if 'A'.toNat ≤ ch ∧ ch ≤ 'Z'.toNat then ch + 32
  else 0

/-- `isAltoLower(ch)`: 1 for the keys typed without shift, else 0. -/
def isAltoLower (ch : Nat) : Int :=
  if ('a'.toNat ≤ ch ∧ ch ≤ 'z'.toNat) ∨ ('0'.toNat ≤ ch ∧ ch ≤ '9'.toNat) then 1
  else if ch = '-'.toNat ∨ ch = '='.toNat ∨ ch = '\\'.toNat ∨ ch = '['.toNat
      ∨ ch = ']'.toNat ∨ ch = ';'.toNat ∨ ch = '\''.toNat ∨ ch = ','.toNat
      ∨ ch = '.'.toNat ∨ ch = '/'.toNat then 1
  else 0

/-- `sendShift(keyPress, shiftRequired)`. -/
def sendShift (clk : Nat → Nat) (keyPress shiftRequired : Int) (s : State) :
    Except Fault State :=
  if shiftRequired ≠ 0 ∧ s.shiftDown = 0 then
    (postEvent clk (if keyPress ≠ 0 then .BiStateOn else .BiStateOff) 136 1 s).map Prod.snd
  else if shiftRequired = 0 ∧ s.shiftDown ≠ 0 then
    (postEvent clk (if keyPress = 0 then .BiStateOn else .BiStateOff) 136 1 s).map Prod.snd
  else
    .ok s

/-- SDL key codes used by `keyEvent` (values of `SDL_keycode.h`). -/
def SDLK_BACKSPACE : Int := 8
def SDLK_TAB : Int := 9
def SDLK_RETURN : Int := 13
def SDLK_ESCAPE : Int := 27
def SDLK_SPACE : Int := 32
def SDLK_DELETE : Int := 127
def SDLK_q : Int := 113
def SDLK_CAPSLOCK : Int := 2 ^ 30 + 57
def SDLK_LEFT : Int := 2 ^ 30 + 80
def SDLK_UP : Int := 2 ^ 30 + 82
def SDLK_LCTRL : Int := 2 ^ 30 + 224
def SDLK_LSHIFT : Int := 2 ^ 30 + 225
def SDLK_RCTRL : Int := 2 ^ 30 + 228
def SDLK_RSHIFT : Int := 2 ^ 30 + 229

/-- The shared tail of both character branches of `keyEvent`: an optional
`sendShift` before the character event on press, after it on release. -/
def charEvent (clk : Nat → Nat) (ch : Nat) (down shiftRequired : Int) (s : State) :
    Except Fault (Int × State) := do
  let s1 ← if down ≠ 0 then sendShift clk 1 shiftRequired s else pure s
  let r ← postEvent clk (if down ≠ 0 then .BiStateOn else .BiStateOff) ch 1 s1
  let s3 ← if down = 0 then sendShift clk 0 shiftRequired r.2 else pure r.2
  pure (r.1, s3)

/-- `keyEvent(keyCode, ch, down)`. -/
def keyEvent (clk : Nat → Nat) (keyCode : Int) (ch : Nat) (down : Int) (s : State) :
    Except Fault (Int × State) :=
  let t : EventType := if down ≠ 0 then .BiStateOn else .BiStateOff
  if keyCode = SDLK_BACKSPACE then postEvent clk t 8 1 s
  else if keyCode = SDLK_TAB then postEvent clk t 9 1 s
  else if keyCode = SDLK_RETURN then postEvent clk t 13 1 s
  else if keyCode = SDLK_ESCAPE then postEvent clk t 27 1 s
  else if keyCode = SDLK_SPACE then postEvent clk t 32 1 s
  else if keyCode = SDLK_DELETE then postEvent clk t 127 1 s
  else if keyCode = SDLK_LSHIFT ∨ keyCode = SDLK_RSHIFT then
    postEvent clk t 136 1 { s with shiftDown := down }
  else if keyCode = SDLK_LCTRL ∨ keyCode = SDLK_RCTRL then
    postEvent clk t 138 1 { s with ctrlDown := down }
  else if keyCode = SDLK_CAPSLOCK then
    postEvent clk t 139 1 { s with capsLockDown := down }
  else if keyCode = SDLK_LEFT then postEvent clk t 95 1 s
  else if keyCode = SDLK_UP then postEvent clk t 94 1 s
  else if '!'.toNat ≤ ch ∧ ch ≤ '~'.toNat then
    if isAltoLower ch ≠ 0 then charEvent clk ch down 0 s
    else if toAltoUpper ch ≠ 0 then charEvent clk (toAltoUpper ch) down 1 s
    else .ok (0, s)
  else .ok (0, s)

/-- `decodeUtf8char(encoded)`: the bytes of a NUL-terminated string; bytes past
the end of the list read as the terminator. -/
def decodeUtf8char (encoded : List Nat) : Int :=
  let c := encoded.getD 0 0
  if c ≤ 0x7f then (c : Int)
  else if 0xc0 ≤ c ∧ c ≤ 0xdf then
    ((((c &&& 0x1f) <<< 6) ||| (encoded.getD 1 0 &&& 0x3f) : Nat) : Int)
  else 0

/-- Conversion of an `int` argument to the `char` parameter of `keyEvent`: the
low eight bits are kept. -/
def toChar (c : Int) : Nat :=
  (c % 256).toNat

/-! ## Frame conversion -/

/-- The inner loop of `updateTexture`, `for( x = ax; x < axaw; x++ )`, as `n`
iterations starting at column `x`.  `srcOff` is `src_data - buffer` in bytes,
`destOff` is `dest_data - pixelBuf` in bytes; the store through `p` is
out of bounds outside the scratch array. -/
def pixelLoop (buffer : List Nat) (buflen srcOff destOff : Int) :
    Nat → Nat → (Nat → Nat) → Except Fault (Nat → Nat)
  | 0, _, pix => .ok pix
  | n + 1, x, pix =>
    let xx := x >>> 3
    if srcOff + xx < buflen then
      let v := buffer.getD (srcOff + xx).toNat 0
      let v := (v >>> (7 - (x &&& 7))) &&& 1
      let p := destOff / 4 + x
      if 0 ≤ p ∧ p < PixelBufLen then
        pixelLoop buffer buflen srcOff destOff n (x + 1)
          (fun i => if i = p.toNat then (if v ≠ 0 then 0xff000000 else 0xffffffff) else pix i)
      else .error .outOfBounds
    else .error .assertFailed

/-- The outer loop of `updateTexture`, `for( y = 0; y < ah; y++ )`, as `n`
iterations; each one converts a line of `aw` pixels and advances the source
by `sw` bytes and the destination by `dw` bytes. -/
def lineLoop (buffer : List Nat) (buflen sw dw : Int) (aw : Nat) :
    Nat → Int → Int → (Nat → Nat) → Except Fault (Nat → Nat)
  | 0, _, _, pix => .ok pix
  | n + 1, srcOff, destOff, pix =>
    match pixelLoop buffer buflen srcOff destOff aw 0 pix with
    | .ok pix1 => lineLoop buffer buflen sw dw aw n (srcOff + sw) (destOff + dw) pix1
    | .error f => .error f

/-- The value an `int` expression takes when its mathematical result is
`v`: the result wraps around to 32 bits, two's complement. -/
def wrapInt (v : Int) : Int :=
  (v + 2 ^ 31) % 2 ^ 32 - 2 ^ 31

/-- `updateTexture()`: convert the monochrome source to 32 bit pixels in
`pixelBuf` (the upload to the host texture is not modelled).  The product
`WIDTH * HEIGHT` of the length check is an `int` product. -/
def updateTexture (s : State) : Except Fault State :=
  let PixPerWord : Int := 16
  let pixLineWidth := ((s.WIDTH + PixPerWord - 1).tdiv PixPerWord) * PixPerWord
  let sw := pixLineWidth.tdiv 8
  let dw := s.WIDTH * 4
  let aw := s.WIDTH
  let ah := s.HEIGHT
  if s.buflen < (wrapInt (s.WIDTH * s.HEIGHT)).tdiv 8 then .ok s
  else
    match lineLoop s.buffer s.buflen sw dw aw.toNat ah.toNat 0 0 s.pixelBuf with
    | .ok pix => .ok { s with pixelBuf := pix }
    | .error f => .error f

/-! ## Mouse handler and session driver -/

/-- SDL constants used by the session driver (values of the SDL2 headers). -/
def SDL_BUTTON_LEFT : Int := 1
def SDL_BUTTON_MIDDLE : Int := 2
def SDL_BUTTON_RIGHT : Int := 3
def SDL_PRESSED : Nat := 1
def SDL_WINDOWEVENT_CLOSE : Nat := 14
def KMOD_LCTRL : Nat := 0x0040

/-- `mousePressReleaseImp(press, button)`. -/
def mousePressReleaseImp (clk : Nat → Nat) (press button : Int) (s : State) :
    Except Fault State :=
  let t : EventType := if press ≠ 0 then .BiStateOn else .BiStateOff
  if button = SDL_BUTTON_LEFT then
    if s.ctrlDown = 0 ∧ s.shiftDown = 0 then
      (postEvent clk t LeftButton 1 s).map Prod.snd
    else if s.ctrlDown ≠ 0 then
      (postEvent clk t RightButton 1 s).map Prod.snd
    else if s.ctrlDown ≠ 0 ∨ s.shiftDown ≠ 0 then
      (postEvent clk t MidButton 1 s).map Prod.snd
    else .ok s
  else if button = SDL_BUTTON_RIGHT then
    if s.shiftDown ≠ 0 then (postEvent clk t MidButton 1 s).map Prod.snd
    else (postEvent clk t RightButton 1 s).map Prod.snd
  else if button = SDL_BUTTON_MIDDLE then
    (postEvent clk t MidButton 1 s).map Prod.snd
  else .ok s

/-- The fields of an `SDL_Event` that `PAL2_processEvents` looks at, by event
type.  `mouseButton` stands for `SDL_MOUSEBUTTONDOWN` and `SDL_MOUSEBUTTONUP`,
`key` for `SDL_KEYDOWN` and `SDL_KEYUP`; `state` is `SDL_PRESSED` (1) or
`SDL_RELEASED` (0). -/
inductive HostEvent where
  | quit
  | appTerminating
  | windowEvent (event : Nat)
  | mouseMotion (x y : Int)
  | mouseButton (state : Nat) (button : Int)
  | textInput (text : List Nat)
  | key (state : Nat) (sym : Int) (mod : Nat)
  | other

/-- Conversion of an `int` argument to the `uint16_t` parameter of
`postEvent`. -/
def toU16 (v : Int) : Nat :=
  (v % 2 ^ 16).toNat

/-- The `SDL_MOUSEMOTION` case of `PAL2_processEvents`. -/
def mouseMotion (clk : Nat → Nat) (mx my : Int) (s : State) : Except Fault State := do
  let dx := mx - s.x
  let dy := my - s.y
  let x := min (max mx 0) (s.WIDTH - 1)
  let y := min (max my 0) (s.HEIGHT - 1)
  let s1 := { s with x := x, y := y }
  let s2 := (PAL2_getTime clk s1).2
  let s3 ← if dx ≠ 0 then (postEvent clk .XLocation (toU16 x) 1 s2).map Prod.snd else pure s2
  let s4 ← if dy ≠ 0 then (postEvent clk .YLocation (toU16 y) 1 s3).map Prod.snd else pure s3
  pure s4

/-- The `switch( e.type )` of `PAL2_processEvents`: `none` stands for
`return -1`, `some s` for falling through to the redraw with state `s`. -/
def dispatch (clk : Nat → Nat) (e : HostEvent) (s : State) : Except Fault (Option State) :=
  match e with
  | .quit => .ok none
  | .appTerminating => .ok none
  | .windowEvent event => if event = SDL_WINDOWEVENT_CLOSE then .ok none else .ok (some s)
  | .mouseMotion mx my => (mouseMotion clk mx my s).map some
  | .mouseButton state button =>
    let down : Int := if state = SDL_PRESSED then 1 else 0
    (mousePressReleaseImp clk down button s).map some
  | .textInput text =>
    (keyEvent clk 0 (toChar (decodeUtf8char text)) 1 s).map (fun r => some r.2)
  | .key state sym mod =>
    let down : Int := if state = SDL_PRESSED then 1 else 0
    if sym = SDLK_q ∧ down ≠ 0 ∧ (mod &&& KMOD_LCTRL) ≠ 0 then .ok none
    else (keyEvent clk sym 0 1 s).map (fun r => some r.2)
  | .other => .ok (some s)

/-- `PAL2_processEvents(sleep)`: `ev` is the event delivered by
`SDL_WaitEventTimeout`, if any.  Returns -1 or the queue depth.  Presenting
the texture and the idle callback are host calls and not modelled. -/
def PAL2_processEvents (clk : Nat → Nat) (sleep : Int) (ev : Option HostEvent) (s : State) :
    Except Fault (Int × State) :=
  if s.window = false then .ok (-1, s)
  else
    let s0 := { s with sleepTime := sleep }
    let dispatched : Except Fault (Option State) :=
      match ev with
      | none => .ok (some s0)
      | some e => dispatch clk e s0
    match dispatched with
    | .error f => .error f
    | .ok none => .ok (-1, s0)
    | .ok (some s1) =>
      match updateTexture s1 with
      | .error f => .error f
      | .ok s2 => .ok ((s2.count : Int), s2)

/-- `PAL2_init(b, len, w, h)`: `hostOk` tells whether window, renderer and
texture could all be created. -/
def PAL2_init (hostOk : Bool) (b : List Nat) (len w h : Int) (s : State) : Int × State :=
  let s1 := { s with window := false, buffer := [], buflen := 0, WIDTH := w, HEIGHT := h }
  if hostOk then (1, { s1 with window := true, buffer := b, buflen := len })
  else (0, s1)

/-- `PAL2_deinit()`. -/
def PAL2_deinit (s : State) : Int × State :=
  (0, { s with window := false, buffer := [], buflen := 0 })

/-! ## Specification vocabulary -/

/-- The words held by the queue, read from `tail` towards `head`. -/
def contents (s : State) : List Nat :=
  (List.range s.count).map (fun i => s.queue.getD ((s.tail + i) % QueueLen) 0)

/-- Representation invariant of the ring buffer. -/
def RingInv (s : State) : Prop :=
  s.queue.length = QueueLen ∧ s.head < QueueLen ∧ s.tail < QueueLen ∧
    s.count ≤ QueueLen ∧ s.head = (s.tail + s.count) % QueueLen

instance (s : State) : Decidable (RingInv s) := by
  unfold RingInv
  infer_instance

/-- Bounded FIFO of the specification: append at the back when there is
room. -/
def fifoEnqueue (l : List Nat) (w : Nat) : List Nat :=
  if l.length < QueueLen then l ++ [w] else l

/-- Bounded FIFO of the specification: remove and return the front entry, or
return the zero sentinel when the list is empty. -/
def fifoDequeue : List Nat → Nat × List Nat
  | [] => (0, [])
  | w :: rest => (w, rest)

/-- The refinement relation between a ring buffer state and a FIFO list. -/
def Refines (s : State) (l : List Nat) : Prop :=
  RingInv s ∧ contents s = l

/-- A call of one of the two queue operations. -/
inductive QOp where
  | enq (w : Nat)
  | deq
  deriving DecidableEq, Repr

/-- Run queue operations on the ring buffer, collecting the dequeued
words. -/
def runQ : List QOp → State → List Nat × State
  | [], s => ([], s)
  | .enq w :: ops, s => runQ ops (enqueue w s)
  | .deq :: ops, s =>
    let r := runQ ops (dequeue s).2
    ((dequeue s).1 :: r.1, r.2)

/-- Run queue operations on the specification FIFO, collecting the dequeued
words. -/
def runFifo : List QOp → List Nat → List Nat × List Nat
  | [], l => ([], l)
  | .enq w :: ops, l => runFifo ops (fifoEnqueue l w)
  | .deq :: ops, l =>
    let r := runFifo ops (fifoDequeue l).2
    ((fifoDequeue l).1 :: r.1, r.2)

/-- A full queue: 100 words wrapped once around the ring, `head = tail`. -/
def fullQueue : State :=
  { init with count := QueueLen, queue := List.replicate QueueLen 0x3008 }

/-- A queue with one free slot: 99 words from slot 0 on. -/
def nearlyFull : State :=
  { init with count := 99, head := 99, queue := List.replicate QueueLen 0x3008 }

/-- The type nibble of an event word. -/
def tag (w : Nat) : Nat :=
  w >>> 12

/-- The decomposition of an event word used by the consumer: type nibble and
12 bit parameter. -/
def decompose (w : Nat) : Nat × Nat :=
  (w >>> 12, w &&& 0xFFF)

/-- An event word carries one of the four postable tags. -/
def isEventWord (w : Nat) : Bool :=
  decide (EventType.XLocation.code ≤ tag w) && decide (tag w ≤ EventType.BiStateOff.code)

/-- What the reader of the word stream expects next: the time word that
opens a frame, the two raw words after an `AbsoluteTime` word, or the event
word that closes the frame. -/
inductive Expect where
  | time
  | high
  | low
  | event
  deriving DecidableEq, Repr

/-- Read the words front to back from a given expectation; the result is
`true` when every word fits and the list ends on a frame boundary. -/
def scan : Expect → List Nat → Bool
  | st, [] => decide (st = .time)
  | .time, w :: rest =>
    if tag w = EventType.DeltaTime.code then scan .event rest
    else if tag w = EventType.AbsoluteTime.code then scan .high rest
    else false
  | .high, _ :: rest => scan .low rest
  | .low, _ :: rest => scan .event rest
  | .event, w :: rest => isEventWord w && scan .time rest

/-- The list is a concatenation of complete frames: a `DeltaTime` word and an
event word, or an `AbsoluteTime` word, two raw words and an event word. -/
def framed (l : List Nat) : Bool :=
  scan .time l

/-- The four event types `postEvent` accepts. -/
def postable (t : EventType) : Bool :=
  decide (EventType.XLocation.code ≤ t.code) && decide (t.code ≤ EventType.BiStateOff.code)

/-- The time words `postEvent` puts before the event word when the clock
reads `now` and the previous event was posted at `last`. -/
def timeWords (now last : Nat) : List Nat :=
  if (now + 2 ^ 32 - last) % 2 ^ 32 ≤ MaxPos then
    [compose EventType.DeltaTime.code ((now + 2 ^ 32 - last) % 2 ^ 32)]
  else
    [compose EventType.AbsoluteTime.code 0, (now >>> 16) &&& 0xffff, now &&& 0xffff]

/-- A step of a producer/consumer run: a timestamped `postEvent`, or the
consumer taking one whole frame off the queue. -/
inductive Op where
  | post (t : EventType) (p : Nat)
  | takeFrame
  deriving DecidableEq, Repr

/-- The consumer takes one frame: the leading time word tells how many words
follow it (three after `AbsoluteTime`, else one). -/
def takeFrame (s : State) : State :=
  if s.count = 0 then s
  else if tag (dequeue s).1 = EventType.AbsoluteTime.code then
    (dequeue (dequeue (dequeue (dequeue s).2).2).2).2
  else
    (dequeue (dequeue s).2).2

/-- Run a producer/consumer sequence. -/
def runOps (clk : Nat → Nat) : List Op → State → Except Fault State
  | [], s => .ok s
  | .post t p :: ops, s =>
    match postEvent clk t p 1 s with
    | .ok r => runOps clk ops r.2
    | .error f => .error f
  | .takeFrame :: ops, s => runOps clk ops (takeFrame s)

/-- A clock that reads 0 for the first 49 readings and 5000 afterwards. -/
def lateClock : Nat → Nat :=
  fun n => if n < 49 then 0 else 5000

/-- Fifty key events posted to the empty queue without any dequeue: 49 with a
`DeltaTime` frame (98 words) and one with an `AbsoluteTime` frame. -/
def overflowOps : List Op :=
  List.replicate 49 (.post .BiStateOn 8) ++ [.post .BiStateOff 8]

/-- A short producer/consumer run that stays within the capacity. -/
def smallOps : List Op :=
  [.post .BiStateOn 8, .post .BiStateOff 8, .takeFrame, .post .XLocation 17, .takeFrame]

/-- The fault a run ended with, if any. -/
def faultOf {α : Type} : Except Fault α → Option Fault
  | .error f => some f
  | .ok _ => none

/-- A session of 8 by 1 pixels on a one byte frame buffer, right after
`PAL2_init`. -/
def smallSession : State :=
  (PAL2_init true [0xA5] 1 8 1 init).2

/-- The session of the specification's example, `init(buffer, length, 100, 100)`,
with `length = 100*100/8 = 1250`, the least length the check lets through. -/
def tightSession : State :=
  (PAL2_init true (List.replicate 1250 0xFF) 1250 100 100 init).2

/-- No word of the sequence is dropped and every parameter fits 12 bits:
each post finds room for its time words and its event word. -/
def roomy (clk : Nat → Nat) : List Op → State → Bool
  | [], _ => true
  | .post t p :: ops, s =>
    decide (p ≤ MaxPos) &&
    decide (s.count + (timeWords (clk s.reads % 2 ^ 32) s.lastEvent).length + 1 ≤ QueueLen) &&
    match postEvent clk t p 1 s with
    | .ok r => roomy clk ops r.2
    | .error _ => false
  | .takeFrame :: ops, s => roomy clk ops (takeFrame s)

/-- The words of one timestamped event: its time words, then the event
word. -/
def frame (now last : Nat) (t : EventType) (p : Nat) : List Nat :=
  timeWords now last ++ [compose t.code p]

/-- Enqueue the words of a list one after the other. -/
def enqueueAll : List Nat → State → State
  | [], s => s
  | w :: ws, s => enqueueAll ws (enqueue w s)

/-- The event words of a word stream, its time words left out: the stream is
read like `scan` reads it. -/
def eventsOf : Expect → List Nat → List Nat
  | _, [] => []
  | .time, w :: rest =>
    if tag w = EventType.DeltaTime.code then eventsOf .event rest
    else if tag w = EventType.AbsoluteTime.code then eventsOf .high rest
    else []
  | .high, _ :: rest => eventsOf .low rest
  | .low, _ :: rest => eventsOf .event rest
  | .event, w :: rest => w :: eventsOf .time rest

/-- The control and navigation keys of the specification with their target
codes. -/
def controlKeyCode (keyCode : Int) : Option Nat :=
  if keyCode = SDLK_BACKSPACE then some 8
  else if keyCode = SDLK_TAB then some 9
  else if keyCode = SDLK_RETURN then some 13
  else if keyCode = SDLK_ESCAPE then some 27
  else if keyCode = SDLK_SPACE then some 32
  else if keyCode = SDLK_DELETE then some 127
  else if keyCode = SDLK_LSHIFT ∨ keyCode = SDLK_RSHIFT then some 136
  else if keyCode = SDLK_LCTRL ∨ keyCode = SDLK_RCTRL then some 138
  else if keyCode = SDLK_CAPSLOCK then some 139
  else if keyCode = SDLK_LEFT then some 95
  else if keyCode = SDLK_UP then some 94
  else none

/-- Standard UTF-8 encoding of a code point up to `0x7FF`: one byte up to
`0x7F`, else a lead byte `110xxxxx` and a continuation byte `10xxxxxx`. -/
def encodeUtf8 (cp : Nat) : List Nat :=
  if cp ≤ 0x7F then [cp]
  else [0xC0 ||| (cp >>> 6), 0x80 ||| (cp &&& 0x3F)]

/-- The source bit of pixel `(x, y)` in a bitmap whose lines are `stride`
bytes apart: bit `7 - (x mod 8)` of byte `y*stride + x/8`. -/
def sourceBit (buffer : List Nat) (stride x y : Nat) : Bool :=
  (buffer.getD (y * stride + x / 8) 0).testBit (7 - x % 8)

/-- A session of 16 by 2 pixels whose two source lines are `A5 0F` and
`FF 00`. -/
def twoLineSession : State :=
  (PAL2_init true [0xA5, 0x0F, 0xFF, 0x00] 4 16 2 init).2

/-- The step from `s` to `s1` appended whole frames to the queue, with event
words `evs`, and left the shift flag alone; `s1` is again a ring state and
holds at most four more words per event. -/
def Posts (s s1 : State) (evs : List Nat) : Prop :=
  RingInv s1 ∧ s1.shiftDown = s.shiftDown ∧ s1.count ≤ s.count + 4 * evs.length ∧
    ∃ suffix, contents s1 = contents s ++ suffix ∧ framed suffix = true ∧
      eventsOf .time suffix = evs

/-- The shift transition `sendShift` has to post: none when the shift flag
already is as required. -/
def shiftWords (keyPress shiftRequired shiftDown : Int) : List Nat :=
  if shiftRequired ≠ 0 ∧ shiftDown = 0 then
    [compose (if keyPress ≠ 0 then EventType.BiStateOn else EventType.BiStateOff).code 136]
  else if shiftRequired = 0 ∧ shiftDown ≠ 0 then
    [compose (if keyPress = 0 then EventType.BiStateOn else EventType.BiStateOff).code 136]
  else []

/-- The character a base key types with shift held: the substitution table of
`toAltoUpper` read backwards, 0 for a key without a shifted character. -/
def shiftedOf (b : Nat) : Nat :=
  if b = '='.toNat then '+'.toNat
  else if b = '-'.toNat then '_'.toNat
  else if b = '\\'.toNat then '|'.toNat
  else if b = '['.toNat then '{'.toNat
  else if b = ']'.toNat then '}'.toNat
  else if b = ';'.toNat then ':'.toNat
  else if b = '\''.toNat then '"'.toNat
  else if b = ','.toNat then '<'.toNat
  else if b = '.'.toNat then '>'.toNat
  else if b = '/'.toNat then '?'.toNat
  else if b = '1'.toNat then '!'.toNat
  else if b = '2'.toNat then '@'.toNat
  else if b = '3'.toNat then '#'.toNat
  else if b = '4'.toNat then '$'.toNat
  else if b = '5'.toNat then '%'.toNat
  else if b = '6'.toNat then '~'.toNat
  else if b = '7'.toNat then '&'.toNat
  else if b = '8'.toNat then '*'.toNat
  else if b = '9'.toNat then '('.toNat
  else if b = '0'.toNat then ')'.toNat
  else if 'a'.toNat ≤ b ∧ b ≤ 'z'.toNat then b - 32
  else 0

/-! ## Lemmas on the ring buffer and the event encoder -/

theorem ringInv_init : RingInv init := by decide

theorem contents_init : contents init = [] := by rfl

theorem enqueue_full (w : Nat) (s : State) (h : s.count = QueueLen) : enqueue w s = s := by
  simp [enqueue, h]

theorem ringInv_enqueue (w : Nat) (s : State) (h : RingInv s) : RingInv (enqueue w s) := by
  unfold enqueue
  split
  · exact h
  · rename_i hc
    obtain ⟨hl, hh, ht, hcnt, heq⟩ := h
    simp only [RingInv, QueueLen, List.length_set] at *
    refine ⟨hl, Nat.mod_lt _ (by decide), ht, by omega, ?_⟩
    omega

theorem contents_enqueue (w : Nat) (s : State) (h : RingInv s) (hc : s.count < QueueLen) :
    contents (enqueue w s) = contents s ++ [w] := by
  obtain ⟨hl, hh, ht, hcnt, heq⟩ := h
  have hne : s.count ≠ QueueLen := by omega
  simp only [enqueue, hne, if_false, contents, List.range_succ, List.map_append, List.map_cons,
    List.map_nil]
  congr 1
  · apply List.map_congr_left
    intro i hi
    have hi' : i < s.count := List.mem_range.mp hi
    have hne : s.head ≠ (s.tail + i) % QueueLen := by
      simp only [QueueLen] at *
      omega
    simp [List.getD_eq_getElem?_getD, List.getElem?_set_ne hne]
  · simp [List.getD_eq_getElem?_getD, ← heq, hl, hh]

theorem ringInv_dequeue (s : State) (h : RingInv s) : RingInv (dequeue s).2 := by
  unfold dequeue
  split
  · exact h
  · rename_i hc
    obtain ⟨hl, hh, ht, hcnt, heq⟩ := h
    simp only [RingInv, QueueLen] at *
    refine ⟨hl, hh, Nat.mod_lt _ (by decide), by omega, ?_⟩
    omega

theorem contents_dequeue (s : State) (h : RingInv s) (hc : s.count ≠ 0) :
    contents s = (dequeue s).1 :: contents (dequeue s).2 := by
  obtain ⟨hl, hh, ht, hcnt, heq⟩ := h
  obtain ⟨n, hn⟩ := Nat.exists_eq_succ_of_ne_zero hc
  simp only [dequeue, hc, if_false, contents]
  rw [hn, List.range_succ_eq_map]
  simp only [List.map_cons, List.map_map, Nat.add_zero, Nat.succ_sub_one]
  congr 1
  · rw [Nat.mod_eq_of_lt ht]
  · apply List.map_congr_left
    intro i _
    simp only [Function.comp, QueueLen]
    congr 1
    omega
theorem shl_or (i t p : Nat) (hp : p < 2 ^ i) : (t <<< i) ||| p = t * 2 ^ i + p := by
  rw [Nat.shiftLeft_eq, Nat.mul_comm, ← Nat.mul_add_lt_is_or hp]

theorem compose_eq_add (t p : Nat) (ht : t ≤ 15) (hp : p ≤ 4095) :
    compose t p = t * 4096 + p := by
  unfold compose
  rw [shl_or 12 t p (by omega)]
  omega

theorem tag_add (t p : Nat) (hp : p ≤ 4095) : tag (t * 4096 + p) = t := by
  unfold tag
  rw [Nat.shiftRight_eq_div_pow]
  omega

theorem and_fff (w : Nat) : w &&& 0xFFF = w % 4096 := by
  exact Nat.and_pow_two_sub_one_eq_mod w 12

theorem and_ffff (w : Nat) : w &&& 0xffff = w % 65536 := by
  exact Nat.and_pow_two_sub_one_eq_mod w 16

theorem recombine (now : Nat) (h : now < 2 ^ 32) :
    (((now >>> 16) &&& 0xffff) <<< 16) ||| (now &&& 0xffff) = now := by
  rw [and_ffff, and_ffff, shl_or 16 _ _ (by omega), Nat.shiftRight_eq_div_pow]
  omega

theorem compose_unmasked (t p : Nat) (ht : t ≤ 5) (hp : p < 65536) :
    compose t p = (t <<< 12) ||| p := by
  unfold compose
  apply Nat.mod_eq_of_lt
  apply Nat.or_lt_two_pow
  · rw [Nat.shiftLeft_eq]; omega
  · exact hp

theorem enqueue_count (w : Nat) (s : State) (hc : s.count < QueueLen) :
    (enqueue w s).count = s.count + 1 := by
  have hne : s.count ≠ QueueLen := by omega
  simp [enqueue, hne]

theorem enqueue_lastEvent (w : Nat) (s : State) : (enqueue w s).lastEvent = s.lastEvent := by
  unfold enqueue
  split <;> rfl

/-- The state in which `postTime` starts enqueueing: clock read, `lastEvent` set. -/
theorem postTime_eq (clk : Nat → Nat) (s : State) :
    postTime clk s =
      if (clk s.reads % 2 ^ 32 + 2 ^ 32 - s.lastEvent) % 2 ^ 32 ≤ MaxPos then
        enqueue (compose EventType.DeltaTime.code
          ((clk s.reads % 2 ^ 32 + 2 ^ 32 - s.lastEvent) % 2 ^ 32))
          { s with reads := s.reads + 1, lastEvent := clk s.reads % 2 ^ 32 }
      else
        enqueue (clk s.reads % 2 ^ 32 &&& 0xffff)
          (enqueue ((clk s.reads % 2 ^ 32) >>> 16 &&& 0xffff)
            (enqueue (compose EventType.AbsoluteTime.code 0)
              { s with reads := s.reads + 1, lastEvent := clk s.reads % 2 ^ 32 })) := rfl

theorem postTime_lastEvent (clk : Nat → Nat) (s : State) :
    (postTime clk s).lastEvent = clk s.reads % 2 ^ 32 := by
  rw [postTime_eq]
  split <;> simp [enqueue_lastEvent]

theorem enqueue_spec (w : Nat) (s : State) (h : RingInv s) (hc : s.count + 1 ≤ QueueLen) :
    RingInv (enqueue w s) ∧ (enqueue w s).count = s.count + 1 ∧
      contents (enqueue w s) = contents s ++ [w] :=
  ⟨ringInv_enqueue w s h, enqueue_count w s (by omega), contents_enqueue w s h (by omega)⟩

theorem postTime_spec (clk : Nat → Nat) (s : State) (h : RingInv s)
    (hroom : s.count + (timeWords (clk s.reads % 2 ^ 32) s.lastEvent).length ≤ QueueLen) :
    RingInv (postTime clk s) ∧
    (postTime clk s).count = s.count + (timeWords (clk s.reads % 2 ^ 32) s.lastEvent).length ∧
    contents (postTime clk s) = contents s ++ timeWords (clk s.reads % 2 ^ 32) s.lastEvent := by
  rw [postTime_eq]
  have h0 : RingInv { s with reads := s.reads + 1, lastEvent := clk s.reads % 2 ^ 32 } := h
  have c0 : contents { s with reads := s.reads + 1, lastEvent := clk s.reads % 2 ^ 32 }
      = contents s := rfl
  have n0 : ({ s with reads := s.reads + 1, lastEvent := clk s.reads % 2 ^ 32 } : State).count
      = s.count := rfl
  generalize ({ s with reads := s.reads + 1, lastEvent := clk s.reads % 2 ^ 32 } : State) = s2
    at h0 c0 n0 ⊢
  unfold timeWords at *
  split
  · rename_i hd
    simp only [hd, if_true, List.length_singleton] at hroom ⊢
    obtain ⟨h1, n1, c1⟩ := enqueue_spec
      (compose EventType.DeltaTime.code ((clk s.reads % 2 ^ 32 + 2 ^ 32 - s.lastEvent) % 2 ^ 32))
      s2 h0 (by omega)
    exact ⟨h1, by omega, by rw [c1, c0]⟩
  · rename_i hd
    simp only [hd, if_false, List.length_cons, List.length_nil] at hroom ⊢
    obtain ⟨h1, n1, c1⟩ := enqueue_spec (compose EventType.AbsoluteTime.code 0) s2 h0 (by omega)
    obtain ⟨h2, n2, c2⟩ := enqueue_spec ((clk s.reads % 2 ^ 32) >>> 16 &&& 0xffff) _ h1
      (by omega)
    obtain ⟨h3, n3, c3⟩ := enqueue_spec (clk s.reads % 2 ^ 32 &&& 0xffff) _ h2 (by omega)
    exact ⟨h3, by omega, by rw [c3, c2, c1, c0]; simp⟩

theorem postEvent_postable (clk : Nat → Nat) (t : EventType) (p : Nat) (s : State)
    (ht : postable t = true) :
    postEvent clk t p 1 s = .ok (1, enqueue (compose t.code p) (postTime clk s)) := by
  have ht' : EventType.XLocation.code ≤ t.code ∧ t.code ≤ EventType.BiStateOff.code := by
    simpa [postable] using ht
  simp [postEvent, ht']

theorem postEvent_spec (clk : Nat → Nat) (t : EventType) (p : Nat) (s : State)
    (ht : postable t = true) (h : RingInv s)
    (hroom : s.count + (timeWords (clk s.reads % 2 ^ 32) s.lastEvent).length + 1 ≤ QueueLen) :
    ∃ s1, postEvent clk t p 1 s = .ok (1, s1) ∧ RingInv s1 ∧
      s1.lastEvent = clk s.reads % 2 ^ 32 ∧
      contents s1 = contents s ++ timeWords (clk s.reads % 2 ^ 32) s.lastEvent
        ++ [compose t.code p] := by
  obtain ⟨hi, hn, hc⟩ := postTime_spec clk s h (by omega)
  refine ⟨_, postEvent_postable clk t p s ht, ringInv_enqueue _ _ hi, ?_, ?_⟩
  · rw [enqueue_lastEvent, postTime_lastEvent]
  · rw [contents_enqueue _ _ hi (by rw [hn]; omega), hc]

theorem contents_length (s : State) : (contents s).length = s.count := by
  simp [contents]

theorem refines_enqueue (w : Nat) (s : State) (l : List Nat) (h : Refines s l) :
    Refines (enqueue w s) (fifoEnqueue l w) := by
  obtain ⟨hinv, hl⟩ := h
  have hlen : l.length = s.count := by rw [← hl, contents_length]
  by_cases hc : s.count = QueueLen
  · rw [enqueue_full w s hc]
    refine ⟨hinv, ?_⟩
    simp [fifoEnqueue, hlen, hc, hl]
  · have hlt : s.count < QueueLen := Nat.lt_of_le_of_ne hinv.2.2.2.1 hc
    refine ⟨ringInv_enqueue w s hinv, ?_⟩
    rw [contents_enqueue w s hinv hlt, hl]
    simp [fifoEnqueue, hlen, hlt]

theorem refines_dequeue (s : State) (l : List Nat) (h : Refines s l) :
    Refines (dequeue s).2 (fifoDequeue l).2 ∧ (dequeue s).1 = (fifoDequeue l).1 := by
  obtain ⟨hinv, hl⟩ := h
  by_cases hc : s.count = 0
  · have hnil : l = [] := by
      apply List.eq_nil_of_length_eq_zero
      rw [← hl, contents_length, hc]
    subst hnil
    simp only [dequeue, hc, if_true, fifoDequeue]
    exact ⟨⟨hinv, hl⟩, trivial⟩
  · have hcons := contents_dequeue s hinv hc
    rw [hl] at hcons
    rw [hcons]
    exact ⟨⟨ringInv_dequeue s hinv, rfl⟩, rfl⟩

theorem refines_run (ops : List QOp) :
    ∀ (s : State) (l : List Nat), Refines s l →
      (runQ ops s).1 = (runFifo ops l).1 ∧ Refines (runQ ops s).2 (runFifo ops l).2 := by
  induction ops with
  | nil => intro s l h; exact ⟨rfl, h⟩
  | cons op ops ih =>
    intro s l h
    cases op with
    | enq w => exact ih _ _ (refines_enqueue w s l h)
    | deq =>
      obtain ⟨hr, hv⟩ := refines_dequeue s l h
      obtain ⟨h1, h2⟩ := ih _ _ hr
      simp only [runQ, runFifo]
      exact ⟨by rw [hv, h1], h2⟩

theorem enqueue_count_le (w : Nat) (s : State) (h : s.count ≤ QueueLen) :
    (enqueue w s).count ≤ QueueLen := by
  unfold enqueue
  split
  · exact h
  · rename_i hc
    show s.count + 1 ≤ QueueLen
    omega

theorem dequeue_count_le (s : State) (h : s.count ≤ QueueLen) :
    (dequeue s).2.count ≤ QueueLen := by
  unfold dequeue
  split
  · exact h
  · show s.count - 1 ≤ QueueLen
    omega

theorem runQ_count_le (ops : List QOp) :
    ∀ s : State, s.count ≤ QueueLen → (runQ ops s).2.count ≤ QueueLen := by
  induction ops with
  | nil => intro s h; exact h
  | cons op ops ih =>
    intro s h
    cases op with
    | enq w => exact ih _ (enqueue_count_le w s h)
    | deq => exact ih _ (dequeue_count_le s h)

theorem scan_append (m : List Nat) (hm : scan .time m = true) (l : List Nat) :
    ∀ st : Expect, scan st l = true → scan st (l ++ m) = true := by
  induction l with
  | nil =>
    intro st h
    have : st = .time := by simpa [scan] using h
    subst this
    simpa using hm
  | cons w rest ih =>
    intro st h
    cases st with
    | time =>
      simp only [scan, List.cons_append] at h ⊢
      split
      · rename_i h0; rw [if_pos h0] at h; exact ih _ h
      · rename_i h0
        rw [if_neg h0] at h
        split
        · rename_i h5; rw [if_pos h5] at h; exact ih _ h
        · rename_i h5; rw [if_neg h5] at h; exact h
    | high => simp only [scan, List.cons_append] at h ⊢; exact ih _ h
    | low => simp only [scan, List.cons_append] at h ⊢; exact ih _ h
    | event =>
      simp only [scan, List.cons_append, Bool.and_eq_true] at h ⊢
      exact ⟨h.1, ih _ h.2⟩

theorem framed_append (l m : List Nat) (hl : framed l = true) (hm : framed m = true) :
    framed (l ++ m) = true :=
  scan_append m hm l .time hl


theorem dequeue_cons (s : State) (w : Nat) (rest : List Nat) (h : RingInv s)
    (hc : contents s = w :: rest) :
    (dequeue s).1 = w ∧ contents (dequeue s).2 = rest ∧ RingInv (dequeue s).2 ∧ s.count ≠ 0 := by
  have hne : s.count ≠ 0 := by
    have := contents_length s
    rw [hc] at this
    simp at this
    omega
  have := contents_dequeue s h hne
  rw [hc] at this
  injection this with h1 h2
  exact ⟨h1.symm, h2.symm, ringInv_dequeue s h, hne⟩

theorem isEventWord_compose (t : EventType) (p : Nat) (ht : postable t = true) (hp : p ≤ MaxPos) :
    isEventWord (compose t.code p) = true := by
  have hp' : p ≤ 4095 := hp
  have htc : t.code ≤ 15 := by cases t <;> decide
  unfold isEventWord
  rw [compose_eq_add t.code p htc hp', tag_add t.code p hp']
  exact ht

theorem scan_time_delta (w : Nat) (rest : List Nat) (h : tag w = EventType.DeltaTime.code) :
    scan .time (w :: rest) = scan .event rest := by
  simp [scan, h]

theorem scan_time_abs (w : Nat) (rest : List Nat) (h : tag w = EventType.AbsoluteTime.code) :
    scan .time (w :: rest) = scan .high rest := by
  have h0 : ¬ tag w = EventType.DeltaTime.code := by rw [h]; decide
  simp only [scan, if_neg h0, if_pos h]

theorem scan_time_other (w : Nat) (rest : List Nat) (h0 : ¬ tag w = EventType.DeltaTime.code)
    (h5 : ¬ tag w = EventType.AbsoluteTime.code) :
    scan .time (w :: rest) = false := by
  simp [scan, h0, h5]

theorem framed_frame (now last : Nat) (t : EventType) (p : Nat) (ht : postable t = true)
    (hp : p ≤ MaxPos) :
    framed (timeWords now last ++ [compose t.code p]) = true := by
  have he := isEventWord_compose t p ht hp
  unfold timeWords framed
  split
  · rename_i hd
    have hd' : (now + 2 ^ 32 - last) % 2 ^ 32 ≤ 4095 := hd
    have h0 : tag (compose EventType.DeltaTime.code ((now + 2 ^ 32 - last) % 2 ^ 32))
        = EventType.DeltaTime.code := by
      rw [compose_eq_add _ _ (by decide) hd', tag_add _ _ hd']
    rw [List.singleton_append, scan_time_delta _ _ h0]
    simp [scan, he]
  · have h5 : tag (compose EventType.AbsoluteTime.code 0) = EventType.AbsoluteTime.code := by
      decide
    rw [List.cons_append, scan_time_abs _ _ h5]
    simp [scan, he]

theorem takeFrame_framed (s : State) (h : RingInv s) (hf : framed (contents s) = true) :
    RingInv (takeFrame s) ∧ framed (contents (takeFrame s)) = true := by
  unfold takeFrame
  split
  · exact ⟨h, hf⟩
  · rename_i hc
    unfold framed at hf ⊢
    match hl : contents s with
    | [] =>
      have := contents_length s
      rw [hl] at this
      exact absurd this.symm hc
    | w :: rest =>
      obtain ⟨hw, hr, hi, _⟩ := dequeue_cons s w rest h hl
      rw [hl] at hf
      rw [hw]
      by_cases h5 : tag w = EventType.AbsoluteTime.code
      · rw [if_pos h5]
        rw [scan_time_abs _ _ h5] at hf
        match rest, hr, hf with
        | [], _, hf => simp [scan] at hf
        | [_], _, hf => simp [scan] at hf
        | [_, _], _, hf => simp [scan] at hf
        | a :: b :: e :: rest1, hr, hf =>
          simp only [scan, Bool.and_eq_true] at hf
          obtain ⟨_, hr2, hi2, _⟩ := dequeue_cons _ a _ hi hr
          obtain ⟨_, hr3, hi3, _⟩ := dequeue_cons _ b _ hi2 hr2
          obtain ⟨_, hr4, hi4, _⟩ := dequeue_cons _ e _ hi3 hr3
          exact ⟨hi4, by rw [hr4]; exact hf.2⟩
      · rw [if_neg h5]
        by_cases h0 : tag w = EventType.DeltaTime.code
        · rw [scan_time_delta _ _ h0] at hf
          match rest, hr, hf with
          | [], _, hf => simp [scan] at hf
          | e :: rest1, hr, hf =>
            simp only [scan, Bool.and_eq_true] at hf
            obtain ⟨_, hr2, hi2, _⟩ := dequeue_cons _ e _ hi hr
            exact ⟨hi2, by rw [hr2]; exact hf.2⟩
        · rw [scan_time_other _ _ h0 h5] at hf
          exact absurd hf (by simp)

theorem runOps_framed (clk : Nat → Nat) (ops : List Op) :
    ∀ s : State, RingInv s → framed (contents s) = true → roomy clk ops s = true →
      ∃ s1, runOps clk ops s = .ok s1 ∧ RingInv s1 ∧ framed (contents s1) = true := by
  induction ops with
  | nil => intro s h hf _; exact ⟨s, rfl, h, hf⟩
  | cons op ops ih =>
    intro s h hf hr
    cases op with
    | takeFrame =>
      obtain ⟨h1, hf1⟩ := takeFrame_framed s h hf
      exact ih _ h1 hf1 hr
    | post t p =>
      simp only [roomy, Bool.and_eq_true, decide_eq_true_eq] at hr
      obtain ⟨⟨hp, hroom⟩, hrest⟩ := hr
      have ht : postable t = true := by
        by_contra hnt
        have hnt' : ¬ (EventType.XLocation.code ≤ t.code ∧ t.code ≤ EventType.BiStateOff.code) := by
          simpa [postable] using hnt
        simp [postEvent, hnt'] at hrest
      obtain ⟨s1, hpost, hi1, _, hc1⟩ := postEvent_spec clk t p s ht h hroom
      rw [hpost] at hrest
      have hf1 : framed (contents s1) = true := by
        rw [hc1, List.append_assoc]
        exact framed_append _ _ hf (framed_frame _ _ t p ht hp)
      simp only [runOps, hpost]
      exact ih s1 hi1 hf1 hrest


/-! ## Lemmas on sequences of posts -/

theorem enqueue_shape (w : Nat) (s : State) :
    ∃ q h c, enqueue w s = { s with queue := q, head := h, count := c } := by
  unfold enqueue
  split
  · exact ⟨s.queue, s.head, s.count, rfl⟩
  · exact ⟨_, _, _, rfl⟩

theorem enqueueAll_shape (ws : List Nat) :
    ∀ s : State, ∃ q h c, enqueueAll ws s = { s with queue := q, head := h, count := c } := by
  induction ws with
  | nil => intro s; exact ⟨s.queue, s.head, s.count, rfl⟩
  | cons w ws ih =>
    intro s
    obtain ⟨q, h, c, he⟩ := enqueue_shape w s
    obtain ⟨q1, h1, c1, he1⟩ := ih (enqueue w s)
    refine ⟨q1, h1, c1, ?_⟩
    simp only [enqueueAll]
    rw [he1, he]

theorem enqueueAll_spec (ws : List Nat) :
    ∀ s : State, RingInv s →
      RingInv (enqueueAll ws s) ∧
      contents (enqueueAll ws s) = contents s ++ ws.take (QueueLen - s.count) ∧
      (enqueueAll ws s).count = min QueueLen (s.count + ws.length) := by
  induction ws with
  | nil =>
    intro s h
    have := h.2.2.2.1
    refine ⟨h, by simp [enqueueAll], ?_⟩
    simp only [enqueueAll, List.length_nil, Nat.add_zero]
    omega
  | cons w ws ih =>
    intro s h
    have hle := h.2.2.2.1
    simp only [enqueueAll]
    by_cases hc : s.count = QueueLen
    · rw [enqueue_full w s hc]
      obtain ⟨h1, c1, n1⟩ := ih s h
      refine ⟨h1, ?_, ?_⟩
      · rw [c1, hc]; simp
      · rw [n1, hc]; simp
    · have hlt : s.count < QueueLen := Nat.lt_of_le_of_ne hle hc
      obtain ⟨h1, c1, n1⟩ := ih (enqueue w s) (ringInv_enqueue w s h)
      rw [enqueue_count w s hlt] at c1 n1
      rw [contents_enqueue w s h hlt] at c1
      refine ⟨h1, ?_, ?_⟩
      · rw [c1]
        obtain ⟨k, hk⟩ : ∃ k, QueueLen - s.count = k + 1 := ⟨QueueLen - s.count - 1, by omega⟩
        rw [hk, List.take_succ_cons, show QueueLen - (s.count + 1) = k by omega]
        simp
      · rw [n1, List.length_cons]; omega

theorem postEvent_eq (clk : Nat → Nat) (t : EventType) (p : Nat) (s : State)
    (ht : postable t = true) :
    postEvent clk t p 1 s = .ok (1, enqueueAll (frame (clk s.reads % 2 ^ 32) s.lastEvent t p)
      { s with reads := s.reads + 1, lastEvent := clk s.reads % 2 ^ 32 }) := by
  rw [postEvent_postable clk t p s ht, postTime_eq]
  unfold frame timeWords
  split <;> rfl

theorem frame_length (now last : Nat) (t : EventType) (p : Nat) :
    (frame now last t p).length ≤ 4 := by
  unfold frame timeWords
  split <;> simp

theorem postEvent_step (clk : Nat → Nat) (t : EventType) (p : Nat) (s : State)
    (ht : postable t = true) (h : RingInv s) :
    ∃ s1, postEvent clk t p 1 s = .ok (1, s1) ∧ RingInv s1 ∧
      s1.lastEvent = clk s.reads % 2 ^ 32 ∧ s1.reads = s.reads + 1 ∧
      s1.shiftDown = s.shiftDown ∧ s1.ctrlDown = s.ctrlDown ∧
      s1.capsLockDown = s.capsLockDown ∧ s1.x = s.x ∧ s1.y = s.y ∧
      s1.count = min QueueLen (s.count + (frame (clk s.reads % 2 ^ 32) s.lastEvent t p).length) ∧
      contents s1 = contents s ++
        (frame (clk s.reads % 2 ^ 32) s.lastEvent t p).take (QueueLen - s.count) := by
  refine ⟨_, postEvent_eq clk t p s ht, ?_⟩
  obtain ⟨q, hd, c, he⟩ := enqueueAll_shape (frame (clk s.reads % 2 ^ 32) s.lastEvent t p)
    { s with reads := s.reads + 1, lastEvent := clk s.reads % 2 ^ 32 }
  obtain ⟨h1, c1, n1⟩ := enqueueAll_spec (frame (clk s.reads % 2 ^ 32) s.lastEvent t p)
    { s with reads := s.reads + 1, lastEvent := clk s.reads % 2 ^ 32 } h
  refine ⟨h1, ?_, ?_, ?_, ?_, ?_, ?_, ?_, n1, c1⟩ <;> rw [he]

theorem postEvent_room (clk : Nat → Nat) (t : EventType) (p : Nat) (s : State)
    (ht : postable t = true) (h : RingInv s) (hroom : s.count + 4 ≤ QueueLen) :
    ∃ s1, postEvent clk t p 1 s = .ok (1, s1) ∧ RingInv s1 ∧
      s1.lastEvent = clk s.reads % 2 ^ 32 ∧ s1.reads = s.reads + 1 ∧
      s1.shiftDown = s.shiftDown ∧ s1.ctrlDown = s.ctrlDown ∧
      s1.capsLockDown = s.capsLockDown ∧ s1.x = s.x ∧ s1.y = s.y ∧
      s1.count ≤ s.count + 4 ∧
      contents s1 = contents s ++ frame (clk s.reads % 2 ^ 32) s.lastEvent t p := by
  obtain ⟨s1, hp, hi, hl, hr, hs, hc, hk, hx, hy, hn, hcont⟩ := postEvent_step clk t p s ht h
  have hlen := frame_length (clk s.reads % 2 ^ 32) s.lastEvent t p
  refine ⟨s1, hp, hi, hl, hr, hs, hc, hk, hx, hy, by omega, ?_⟩
  rw [hcont, List.take_of_length_le (by omega)]

theorem eventsOf_frame (now last : Nat) (t : EventType) (p : Nat) (rest : List Nat) :
    eventsOf .time (frame now last t p ++ rest) = compose t.code p :: eventsOf .time rest := by
  unfold frame timeWords
  split
  · rename_i hd
    have hd' : (now + 2 ^ 32 - last) % 2 ^ 32 ≤ 4095 := hd
    have h0 : tag (compose EventType.DeltaTime.code ((now + 2 ^ 32 - last) % 2 ^ 32))
        = EventType.DeltaTime.code := by
      rw [compose_eq_add _ _ (by decide) hd', tag_add _ _ hd']
    simp only [List.singleton_append, List.cons_append, eventsOf, if_pos h0]
    rfl
  · have h5 : tag (compose EventType.AbsoluteTime.code 0) = EventType.AbsoluteTime.code := by
      decide
    have h0 : ¬ tag (compose EventType.AbsoluteTime.code 0) = EventType.DeltaTime.code := by
      decide
    simp only [List.singleton_append, List.cons_append, List.nil_append, eventsOf, if_pos h5,
      if_neg h0]
    rfl

theorem eventsOf_append (m : List Nat) (l : List Nat) :
    ∀ st : Expect, scan st l = true → eventsOf st (l ++ m) = eventsOf st l ++ eventsOf .time m := by
  induction l with
  | nil =>
    intro st h
    have : st = .time := by simpa [scan] using h
    subst this
    simp [eventsOf]
  | cons w rest ih =>
    intro st h
    cases st with
    | time =>
      simp only [scan, eventsOf, List.cons_append] at h ⊢
      split
      · rename_i h0; rw [if_pos h0] at h; exact ih _ h
      · rename_i h0
        rw [if_neg h0] at h
        split
        · rename_i h5; rw [if_pos h5] at h; exact ih _ h
        · rename_i h5; rw [if_neg h5] at h; exact absurd h (by simp)
    | high => simp only [scan, eventsOf, List.cons_append] at h ⊢; exact ih _ h
    | low => simp only [scan, eventsOf, List.cons_append] at h ⊢; exact ih _ h
    | event =>
      simp only [scan, Bool.and_eq_true] at h
      show w :: eventsOf .time (rest ++ m) = w :: eventsOf .time rest ++ eventsOf .time m
      rw [ih _ h.2, List.cons_append]

theorem posts_refl (s : State) (h : RingInv s) : Posts s s [] :=
  ⟨h, rfl, by simp, [], by simp, by decide, by simp [eventsOf]⟩

theorem posts_trans (s s1 s2 : State) (e1 e2 : List Nat) (h1 : Posts s s1 e1)
    (h2 : Posts s1 s2 e2) : Posts s s2 (e1 ++ e2) := by
  obtain ⟨_, hs1, hn1, suf1, hc1, hf1, he1⟩ := h1
  obtain ⟨hi2, hs2, hn2, suf2, hc2, hf2, he2⟩ := h2
  refine ⟨hi2, by rw [hs2, hs1], ?_, suf1 ++ suf2, ?_, framed_append _ _ hf1 hf2, ?_⟩
  · rw [List.length_append]; omega
  · rw [hc2, hc1, List.append_assoc]
  · rw [eventsOf_append suf2 suf1 .time hf1, he1, he2]

theorem posts_postEvent (clk : Nat → Nat) (t : EventType) (p : Nat) (s : State)
    (ht : postable t = true) (hp : p ≤ MaxPos) (h : RingInv s) (hroom : s.count + 4 ≤ QueueLen) :
    ∃ s1, postEvent clk t p 1 s = .ok (1, s1) ∧ Posts s s1 [compose t.code p] := by
  obtain ⟨s1, hpost, hi, _, _, hs, _, _, _, _, hn, hcont⟩ := postEvent_room clk t p s ht h hroom
  refine ⟨s1, hpost, hi, hs, by simpa using hn, _, hcont, framed_frame _ _ t p ht hp, ?_⟩
  have := eventsOf_frame (clk s.reads % 2 ^ 32) s.lastEvent t p []
  simpa [eventsOf] using this

theorem posts_sendShift (clk : Nat → Nat) (keyPress shiftRequired : Int) (s : State)
    (h : RingInv s) (hroom : s.count + 4 ≤ QueueLen) :
    ∃ s1, sendShift clk keyPress shiftRequired s = .ok s1 ∧
      Posts s s1 (shiftWords keyPress shiftRequired s.shiftDown) := by
  unfold sendShift shiftWords
  split
  · obtain ⟨s1, hpost, hp⟩ := posts_postEvent clk
      (if keyPress ≠ 0 then .BiStateOn else .BiStateOff) 136 s (by split <;> rfl) (by decide)
      h hroom
    exact ⟨s1, by rw [hpost]; rfl, hp⟩
  · split
    · obtain ⟨s1, hpost, hp⟩ := posts_postEvent clk
        (if keyPress = 0 then .BiStateOn else .BiStateOff) 136 s (by split <;> rfl) (by decide)
        h hroom
      exact ⟨s1, by rw [hpost]; rfl, hp⟩
    · exact ⟨s, rfl, posts_refl s h⟩

theorem shiftWords_length (keyPress shiftRequired shiftDown : Int) :
    (shiftWords keyPress shiftRequired shiftDown).length ≤ 1 := by
  unfold shiftWords
  split
  · simp
  · split <;> simp

theorem posts_charEvent (clk : Nat → Nat) (b : Nat) (down shiftRequired : Int) (s : State)
    (hb : b ≤ MaxPos) (h : RingInv s) (hroom : s.count + 8 ≤ QueueLen) :
    ∃ s1, charEvent clk b down shiftRequired s = .ok (1, s1) ∧
      Posts s s1
        ((if down ≠ 0 then shiftWords 1 shiftRequired s.shiftDown else []) ++
          [compose (if down ≠ 0 then EventType.BiStateOn else EventType.BiStateOff).code b] ++
          (if down = 0 then shiftWords 0 shiftRequired s.shiftDown else [])) := by
  unfold charEvent
  by_cases hd : down = 0
  · have hnd : ¬ down ≠ 0 := by simpa using hd
    simp only [if_neg hnd, if_pos hd, List.nil_append]
    obtain ⟨s2, hpost, hp2⟩ := posts_postEvent clk .BiStateOff b s rfl hb h (by omega)
    have hn2 := hp2.2.2.1
    simp only [List.length_singleton] at hn2
    obtain ⟨s3, hsh, hp3⟩ := posts_sendShift clk 0 shiftRequired s2 hp2.1 (by omega)
    rw [hp2.2.1] at hp3
    refine ⟨s3, ?_, posts_trans s s2 s3 _ _ hp2 hp3⟩
    simp only [pure, Except.pure, bind, Except.bind, hpost, hsh]
  · have hnd : down ≠ 0 := hd
    simp only [if_pos hnd, if_neg hd, List.append_nil]
    obtain ⟨s1, hsh, hp1⟩ := posts_sendShift clk 1 shiftRequired s h (by omega)
    have hn1 := hp1.2.2.1
    have := shiftWords_length 1 shiftRequired s.shiftDown
    obtain ⟨s2, hpost, hp2⟩ := posts_postEvent clk .BiStateOn b s1 rfl hb hp1.1 (by omega)
    refine ⟨s2, ?_, posts_trans s s1 s2 _ _ hp1 hp2⟩
    simp only [pure, Except.pure, bind, Except.bind, hpost, hsh]

/-! ## Lemmas on the key translator and the mouse handler -/

theorem toAltoUpper_le (ch : Nat) (hlo : '!'.toNat ≤ ch) (hhi : ch ≤ '~'.toNat) :
    toAltoUpper ch ≤ MaxPos := by
  have hlo' : 33 ≤ ch := hlo
  have hhi' : ch ≤ 126 := hhi
  interval_cases ch <;> decide

theorem shift_class (ch : Nat) (hlo : '!'.toNat ≤ ch) (hhi : ch ≤ '~'.toNat)
    (hlow : isAltoLower ch = 0) (h1 : ch ≠ 0x5E) (h2 : ch ≠ 0x60) :
    toAltoUpper ch ≠ 0 := by
  have hlo' : 33 ≤ ch := hlo
  have hhi' : ch ≤ 126 := hhi
  interval_cases ch <;>
    first
    | decide
    | exact absurd hlow (by decide)
    | exact absurd rfl h1
    | exact absurd rfl h2

theorem keyEvent_text (clk : Nat → Nat) (ch : Nat) (down : Int) (s : State) :
    keyEvent clk 0 ch down s =
      if '!'.toNat ≤ ch ∧ ch ≤ '~'.toNat then
        if isAltoLower ch ≠ 0 then charEvent clk ch down 0 s
        else if toAltoUpper ch ≠ 0 then charEvent clk (toAltoUpper ch) down 1 s
        else .ok (0, s)
      else .ok (0, s) := by
  unfold keyEvent
  rw [if_neg (by decide), if_neg (by decide), if_neg (by decide), if_neg (by decide),
    if_neg (by decide), if_neg (by decide), if_neg (by decide), if_neg (by decide),
    if_neg (by decide), if_neg (by decide), if_neg (by decide)]

theorem keyEvent_shift_class (clk : Nat → Nat) (ch : Nat) (down : Int) (s : State)
    (hlo : '!'.toNat ≤ ch) (hhi : ch ≤ '~'.toNat) (hlow : isAltoLower ch = 0)
    (hup : toAltoUpper ch ≠ 0) :
    keyEvent clk 0 ch down s = charEvent clk (toAltoUpper ch) down 1 s := by
  rw [keyEvent_text, if_pos ⟨hlo, hhi⟩, if_neg (by simp [hlow]), if_pos hup]

theorem postEvent_flags (clk : Nat → Nat) (t : EventType) (p : Nat) (s : State)
    (ht : postable t = true) :
    ∃ s1, postEvent clk t p 1 s = .ok (1, s1) ∧ s1.shiftDown = s.shiftDown ∧
      s1.ctrlDown = s.ctrlDown ∧ s1.capsLockDown = s.capsLockDown := by
  refine ⟨_, postEvent_eq clk t p s ht, ?_⟩
  obtain ⟨q, hd, c, he⟩ := enqueueAll_shape (frame (clk s.reads % 2 ^ 32) s.lastEvent t p)
    { s with reads := s.reads + 1, lastEvent := clk s.reads % 2 ^ 32 }
  rw [he]
  exact ⟨rfl, rfl, rfl⟩

theorem sendShift_flags (clk : Nat → Nat) (keyPress shiftRequired : Int) (s : State) :
    ∃ s1, sendShift clk keyPress shiftRequired s = .ok s1 ∧ s1.shiftDown = s.shiftDown ∧
      s1.ctrlDown = s.ctrlDown ∧ s1.capsLockDown = s.capsLockDown := by
  unfold sendShift
  split
  · obtain ⟨s1, hp, hf⟩ := postEvent_flags clk
      (if keyPress ≠ 0 then .BiStateOn else .BiStateOff) 136 s (by split <;> rfl)
    exact ⟨s1, by rw [hp]; rfl, hf⟩
  · split
    · obtain ⟨s1, hp, hf⟩ := postEvent_flags clk
        (if keyPress = 0 then .BiStateOn else .BiStateOff) 136 s (by split <;> rfl)
      exact ⟨s1, by rw [hp]; rfl, hf⟩
    · exact ⟨s, rfl, rfl, rfl, rfl⟩

theorem charEvent_flags (clk : Nat → Nat) (b : Nat) (down shiftRequired : Int) (s : State) :
    ∃ s1, charEvent clk b down shiftRequired s = .ok (1, s1) ∧ s1.shiftDown = s.shiftDown ∧
      s1.ctrlDown = s.ctrlDown ∧ s1.capsLockDown = s.capsLockDown := by
  unfold charEvent
  by_cases hd : down = 0
  · have hnd : ¬ down ≠ 0 := by simpa using hd
    simp only [if_neg hnd, if_pos hd]
    obtain ⟨s2, hpost, h2a, h2b, h2c⟩ := postEvent_flags clk .BiStateOff b s rfl
    obtain ⟨s3, hsh, h3a, h3b, h3c⟩ := sendShift_flags clk 0 shiftRequired s2
    refine ⟨s3, ?_, by rw [h3a, h2a], by rw [h3b, h2b], by rw [h3c, h2c]⟩
    simp only [pure, Except.pure, bind, Except.bind, hpost, hsh]
  · have hnd : down ≠ 0 := hd
    simp only [if_pos hnd, if_neg hd]
    obtain ⟨s1, hsh, h1a, h1b, h1c⟩ := sendShift_flags clk 1 shiftRequired s
    obtain ⟨s2, hpost, h2a, h2b, h2c⟩ := postEvent_flags clk .BiStateOn b s1 rfl
    refine ⟨s2, ?_, by rw [h2a, h1a], by rw [h2b, h1b], by rw [h2c, h1c]⟩
    simp only [pure, Except.pure, bind, Except.bind, hpost, hsh]

theorem postable_of_down (down : Int) :
    postable (if down ≠ 0 then EventType.BiStateOn else EventType.BiStateOff) = true := by
  split <;> rfl

theorem keyEvent_flags (clk : Nat → Nat) (keyCode : Int) (ch : Nat) (down : Int) (s : State) :
    ∃ r s1, keyEvent clk keyCode ch down s = .ok (r, s1) ∧
      s1.shiftDown = (if keyCode = SDLK_LSHIFT ∨ keyCode = SDLK_RSHIFT then down
        else s.shiftDown) ∧
      s1.ctrlDown = (if keyCode = SDLK_LCTRL ∨ keyCode = SDLK_RCTRL then down
        else s.ctrlDown) ∧
      s1.capsLockDown = (if keyCode = SDLK_CAPSLOCK then down else s.capsLockDown) := by
  have hpt := postable_of_down down
  have plain : ∀ code : Nat, ¬ (keyCode = SDLK_LSHIFT ∨ keyCode = SDLK_RSHIFT) →
      ¬ (keyCode = SDLK_LCTRL ∨ keyCode = SDLK_RCTRL) → ¬ keyCode = SDLK_CAPSLOCK →
      ∃ r s1, postEvent clk (if down ≠ 0 then .BiStateOn else .BiStateOff) code 1 s
          = .ok (r, s1) ∧
        s1.shiftDown = (if keyCode = SDLK_LSHIFT ∨ keyCode = SDLK_RSHIFT then down
          else s.shiftDown) ∧
        s1.ctrlDown = (if keyCode = SDLK_LCTRL ∨ keyCode = SDLK_RCTRL then down
          else s.ctrlDown) ∧
        s1.capsLockDown = (if keyCode = SDLK_CAPSLOCK then down else s.capsLockDown) := by
    intro code hs hc hk
    obtain ⟨s1, hp, ha, hb, hcc⟩ := postEvent_flags clk _ code s hpt
    exact ⟨1, s1, hp, by rw [if_neg hs, ha], by rw [if_neg hc, hb], by rw [if_neg hk, hcc]⟩
  unfold keyEvent
  dsimp only
  by_cases h1 : keyCode = SDLK_BACKSPACE
  · rw [if_pos h1]; subst h1; exact plain 8 (by decide) (by decide) (by decide)
  rw [if_neg h1]
  by_cases h2 : keyCode = SDLK_TAB
  · rw [if_pos h2]; subst h2; exact plain 9 (by decide) (by decide) (by decide)
  rw [if_neg h2]
  by_cases h3 : keyCode = SDLK_RETURN
  · rw [if_pos h3]; subst h3; exact plain 13 (by decide) (by decide) (by decide)
  rw [if_neg h3]
  by_cases h4 : keyCode = SDLK_ESCAPE
  · rw [if_pos h4]; subst h4; exact plain 27 (by decide) (by decide) (by decide)
  rw [if_neg h4]
  by_cases h5 : keyCode = SDLK_SPACE
  · rw [if_pos h5]; subst h5; exact plain 32 (by decide) (by decide) (by decide)
  rw [if_neg h5]
  by_cases h6 : keyCode = SDLK_DELETE
  · rw [if_pos h6]; subst h6; exact plain 127 (by decide) (by decide) (by decide)
  rw [if_neg h6]
  by_cases hs : keyCode = SDLK_LSHIFT ∨ keyCode = SDLK_RSHIFT
  · rw [if_pos hs]
    have hc : ¬ (keyCode = SDLK_LCTRL ∨ keyCode = SDLK_RCTRL) := by
      rcases hs with h | h <;> subst h <;> decide
    have hk : ¬ keyCode = SDLK_CAPSLOCK := by
      rcases hs with h | h <;> subst h <;> decide
    obtain ⟨s1, hp, ha, hb, hcc⟩ := postEvent_flags clk _ 136 { s with shiftDown := down } hpt
    exact ⟨1, s1, hp, by rw [if_pos hs, ha], by rw [if_neg hc, hb], by rw [if_neg hk, hcc]⟩
  rw [if_neg hs]
  by_cases hc : keyCode = SDLK_LCTRL ∨ keyCode = SDLK_RCTRL
  · rw [if_pos hc]
    have hk : ¬ keyCode = SDLK_CAPSLOCK := by
      rcases hc with h | h <;> subst h <;> decide
    obtain ⟨s1, hp, ha, hb, hcc⟩ := postEvent_flags clk _ 138 { s with ctrlDown := down } hpt
    exact ⟨1, s1, hp, by rw [if_neg hs, ha], by rw [if_pos hc, hb], by rw [if_neg hk, hcc]⟩
  rw [if_neg hc]
  by_cases hk : keyCode = SDLK_CAPSLOCK
  · rw [if_pos hk]
    obtain ⟨s1, hp, ha, hb, hcc⟩ := postEvent_flags clk _ 139 { s with capsLockDown := down } hpt
    exact ⟨1, s1, hp, by rw [if_neg hs, ha], by rw [if_neg hc, hb], by rw [if_pos hk, hcc]⟩
  rw [if_neg hk]
  by_cases h7 : keyCode = SDLK_LEFT
  · rw [if_pos h7]; exact plain 95 hs hc hk
  rw [if_neg h7]
  by_cases h8 : keyCode = SDLK_UP
  · rw [if_pos h8]; exact plain 94 hs hc hk
  rw [if_neg h8]
  have same : ∀ (s1 : State), s1.shiftDown = s.shiftDown → s1.ctrlDown = s.ctrlDown →
      s1.capsLockDown = s.capsLockDown →
      s1.shiftDown = (if keyCode = SDLK_LSHIFT ∨ keyCode = SDLK_RSHIFT then down
          else s.shiftDown) ∧
        s1.ctrlDown = (if keyCode = SDLK_LCTRL ∨ keyCode = SDLK_RCTRL then down
          else s.ctrlDown) ∧
        s1.capsLockDown = (if keyCode = SDLK_CAPSLOCK then down else s.capsLockDown) := by
    intro s1 ha hb hcc
    exact ⟨by rw [if_neg hs, ha], by rw [if_neg hc, hb], by rw [if_neg hk, hcc]⟩
  by_cases hr : '!'.toNat ≤ ch ∧ ch ≤ '~'.toNat
  · rw [if_pos hr]
    by_cases hl : isAltoLower ch ≠ 0
    · rw [if_pos hl]
      obtain ⟨s1, hce, ha, hb, hcc⟩ := charEvent_flags clk ch down 0 s
      exact ⟨1, s1, hce, same s1 ha hb hcc⟩
    · rw [if_neg hl]
      by_cases hu : toAltoUpper ch ≠ 0
      · rw [if_pos hu]
        obtain ⟨s1, hce, ha, hb, hcc⟩ := charEvent_flags clk (toAltoUpper ch) down 1 s
        exact ⟨1, s1, hce, same s1 ha hb hcc⟩
      · rw [if_neg hu]
        exact ⟨0, s, rfl, same s rfl rfl rfl⟩
  · rw [if_neg hr]
    exact ⟨0, s, rfl, same s rfl rfl rfl⟩

theorem keyEvent_control (clk : Nat → Nat) (keyCode : Int) (ch : Nat) (down : Int) (s : State)
    (code : Nat) (hkey : controlKeyCode keyCode = some code) :
    keyEvent clk keyCode ch down s =
      postEvent clk (if down ≠ 0 then .BiStateOn else .BiStateOff) code 1
        { s with
          shiftDown := if keyCode = SDLK_LSHIFT ∨ keyCode = SDLK_RSHIFT then down
            else s.shiftDown
          ctrlDown := if keyCode = SDLK_LCTRL ∨ keyCode = SDLK_RCTRL then down
            else s.ctrlDown
          capsLockDown := if keyCode = SDLK_CAPSLOCK then down else s.capsLockDown } := by
  have plain : ¬ (keyCode = SDLK_LSHIFT ∨ keyCode = SDLK_RSHIFT) →
      ¬ (keyCode = SDLK_LCTRL ∨ keyCode = SDLK_RCTRL) → ¬ keyCode = SDLK_CAPSLOCK →
      ({ s with
          shiftDown := if keyCode = SDLK_LSHIFT ∨ keyCode = SDLK_RSHIFT then down
            else s.shiftDown
          ctrlDown := if keyCode = SDLK_LCTRL ∨ keyCode = SDLK_RCTRL then down
            else s.ctrlDown
          capsLockDown := if keyCode = SDLK_CAPSLOCK then down else s.capsLockDown } : State)
        = s := by
    intro hs hc hk
    rw [if_neg hs, if_neg hc, if_neg hk]
  unfold controlKeyCode at hkey
  unfold keyEvent
  dsimp only
  by_cases h1 : keyCode = SDLK_BACKSPACE
  · rw [if_pos h1] at hkey ⊢
    injection hkey with hkey
    rw [plain (by rw [h1]; decide) (by rw [h1]; decide) (by rw [h1]; decide), hkey]
  rw [if_neg h1] at hkey ⊢
  by_cases h2 : keyCode = SDLK_TAB
  · rw [if_pos h2] at hkey ⊢
    injection hkey with hkey
    rw [plain (by rw [h2]; decide) (by rw [h2]; decide) (by rw [h2]; decide), hkey]
  rw [if_neg h2] at hkey ⊢
  by_cases h3 : keyCode = SDLK_RETURN
  · rw [if_pos h3] at hkey ⊢
    injection hkey with hkey
    rw [plain (by rw [h3]; decide) (by rw [h3]; decide) (by rw [h3]; decide), hkey]
  rw [if_neg h3] at hkey ⊢
  by_cases h4 : keyCode = SDLK_ESCAPE
  · rw [if_pos h4] at hkey ⊢
    injection hkey with hkey
    rw [plain (by rw [h4]; decide) (by rw [h4]; decide) (by rw [h4]; decide), hkey]
  rw [if_neg h4] at hkey ⊢
  by_cases h5 : keyCode = SDLK_SPACE
  · rw [if_pos h5] at hkey ⊢
    injection hkey with hkey
    rw [plain (by rw [h5]; decide) (by rw [h5]; decide) (by rw [h5]; decide), hkey]
  rw [if_neg h5] at hkey ⊢
  by_cases h6 : keyCode = SDLK_DELETE
  · rw [if_pos h6] at hkey ⊢
    injection hkey with hkey
    rw [plain (by rw [h6]; decide) (by rw [h6]; decide) (by rw [h6]; decide), hkey]
  rw [if_neg h6] at hkey ⊢
  by_cases hs : keyCode = SDLK_LSHIFT ∨ keyCode = SDLK_RSHIFT
  · rw [if_pos hs] at hkey ⊢
    injection hkey with hkey
    have hc : ¬ (keyCode = SDLK_LCTRL ∨ keyCode = SDLK_RCTRL) := by
      rcases hs with h | h <;> subst h <;> decide
    have hk : ¬ keyCode = SDLK_CAPSLOCK := by
      rcases hs with h | h <;> subst h <;> decide
    rw [if_pos hs, if_neg hc, if_neg hk, hkey]
  rw [if_neg hs] at hkey ⊢
  by_cases hc : keyCode = SDLK_LCTRL ∨ keyCode = SDLK_RCTRL
  · rw [if_pos hc] at hkey ⊢
    injection hkey with hkey
    have hk : ¬ keyCode = SDLK_CAPSLOCK := by
      rcases hc with h | h <;> subst h <;> decide
    rw [if_neg hs, if_pos hc, if_neg hk, hkey]
  rw [if_neg hc] at hkey ⊢
  by_cases hk : keyCode = SDLK_CAPSLOCK
  · rw [if_pos hk] at hkey ⊢
    injection hkey with hkey
    rw [if_neg hs, if_neg hc, if_pos hk, hkey]
  rw [if_neg hk] at hkey ⊢
  by_cases h7 : keyCode = SDLK_LEFT
  · rw [if_pos h7] at hkey ⊢
    injection hkey with hkey
    rw [plain hs hc hk, hkey]
  rw [if_neg h7] at hkey ⊢
  by_cases h8 : keyCode = SDLK_UP
  · rw [if_pos h8] at hkey ⊢
    injection hkey with hkey
    rw [plain hs hc hk, hkey]
  rw [if_neg h8] at hkey
  exact absurd hkey (by simp)

/-! ## Lemmas on the frame conversion -/

theorem pixelLoop_spec (buffer : List Nat) (buflen : Int) (so dp : Nat) :
    ∀ (n x : Nat) (pix : Nat → Nat),
      (∀ k, k < n → ((so + (x + k) / 8 : Nat) : Int) < buflen) →
      dp + x + n ≤ PixelBufLen →
      ∃ pix1, pixelLoop buffer buflen (so : Int) ((4 * dp : Nat) : Int) n x pix = .ok pix1 ∧
        (∀ i, i < dp + x ∨ dp + x + n ≤ i → pix1 i = pix i) ∧
        (∀ k, k < n → pix1 (dp + x + k) =
          if (buffer.getD (so + (x + k) / 8) 0 >>> (7 - ((x + k) &&& 7))) &&& 1 ≠ 0
          then 0xff000000 else 0xffffffff) := by
  intro n
  induction n with
  | zero =>
    intro x pix _ _
    exact ⟨pix, rfl, fun _ _ => rfl, fun k hk => absurd hk (Nat.not_lt_zero k)⟩
  | succ n ih =>
    intro x pix hsrc hdst
    have h0 := hsrc 0 (Nat.succ_pos n)
    have hxx : x >>> 3 = x / 8 := by rw [Nat.shiftRight_eq_div_pow]
    have hidx : ((so : Int) + ((x >>> 3 : Nat) : Int)).toNat = so + x / 8 := by
      rw [hxx]; omega
    have hp : ((4 * dp : Nat) : Int) / 4 + (x : Int) = ((dp + x : Nat) : Int) := by
      omega
    have hpn : (((4 * dp : Nat) : Int) / 4 + (x : Int)).toNat = dp + x := by
      rw [hp]; omega
    have hc1 : (so : Int) + ((x >>> 3 : Nat) : Int) < buflen := by
      rw [hxx]
      have := h0
      simp only [Nat.add_zero] at this
      omega
    have hc2 : 0 ≤ ((4 * dp : Nat) : Int) / 4 + (x : Int) ∧
        ((4 * dp : Nat) : Int) / 4 + (x : Int) < (PixelBufLen : Int) := by
      rw [hp]
      constructor <;> omega
    obtain ⟨pix1, hrun, hout, hin⟩ := ih (x + 1)
      (fun i => if i = dp + x then
          (if (buffer.getD (so + x / 8) 0 >>> (7 - (x &&& 7))) &&& 1 ≠ 0
            then 0xff000000 else 0xffffffff)
        else pix i)
      (fun k hk => by
        have := hsrc (k + 1) (by omega)
        rw [show x + 1 + k = x + (k + 1) by omega]
        exact this)
      (by omega)
    refine ⟨pix1, ?_, ?_, ?_⟩
    · unfold pixelLoop
      simp only []
      rw [if_pos hc1, if_pos hc2, hidx, hpn]
      exact hrun
    · intro i hi
      rw [hout i (by omega)]
      have hne : i ≠ dp + x := by omega
      simp only [if_neg hne]
    · intro k hk
      cases k with
      | zero =>
        rw [Nat.add_zero, hout (dp + x) (Or.inl (by omega))]
        simp only [if_true, Nat.add_zero]
      | succ k =>
        have := hin k (by omega)
        rw [show dp + x + (k + 1) = dp + (x + 1) + k by omega,
          show x + (k + 1) = x + 1 + k by omega]
        exact this

theorem lineLoop_spec (buffer : List Nat) (buflen : Int) (stride W : Nat)
    (hwide : W ≤ 8 * stride) :
    ∀ (n so dp : Nat) (pix : Nat → Nat),
      ((so + stride * n : Nat) : Int) ≤ buflen →
      dp + W * n ≤ PixelBufLen →
      ∃ pix1, lineLoop buffer buflen (stride : Int) ((4 * W : Nat) : Int) W n (so : Int)
          ((4 * dp : Nat) : Int) pix = .ok pix1 ∧
        (∀ i, i < dp ∨ dp + W * n ≤ i → pix1 i = pix i) ∧
        (∀ j x, j < n → x < W → pix1 (dp + W * j + x) =
          if (buffer.getD (so + stride * j + x / 8) 0 >>> (7 - (x &&& 7))) &&& 1 ≠ 0
          then 0xff000000 else 0xffffffff) := by
  intro n
  induction n with
  | zero =>
    intro so dp pix _ _
    exact ⟨pix, rfl, fun _ _ => rfl, fun j x hj _ => absurd hj (Nat.not_lt_zero j)⟩
  | succ n ih =>
    intro so dp pix hsrc hdst
    have hs1 : stride * (n + 1) = stride * n + stride := Nat.mul_succ stride n
    have hw1 : W * (n + 1) = W * n + W := Nat.mul_succ W n
    obtain ⟨pixa, hrow, houta, hina⟩ := pixelLoop_spec buffer buflen so dp W 0 pix
      (fun k hk => by
        have : (0 + k) / 8 < stride := by omega
        have h2 : ((so + stride * (n + 1) : Nat) : Int) ≤ buflen := hsrc
        have hn : 0 ≤ stride * n := Nat.zero_le _
        omega)
      (by omega)
    obtain ⟨pix1, hrest, hout, hin⟩ := ih (so + stride) (dp + W) pixa
      (by
        have h2 : ((so + stride * (n + 1) : Nat) : Int) ≤ buflen := hsrc
        rw [hs1] at h2
        rw [show so + stride + stride * n = so + (stride * n + stride) by omega]
        exact h2)
      (by omega)
    have e1 : ((so : Nat) : Int) + (stride : Int) = ((so + stride : Nat) : Int) := by
      push_cast; rfl
    have e2 : ((4 * dp : Nat) : Int) + ((4 * W : Nat) : Int) = ((4 * (dp + W) : Nat) : Int) := by
      push_cast; ring
    refine ⟨pix1, ?_, ?_, ?_⟩
    · unfold lineLoop
      rw [hrow]
      simp only []
      rw [e1, e2]
      exact hrest
    · intro i hi
      rw [hout i (by omega), houta i (by omega)]
    · intro j x hj hx
      cases j with
      | zero =>
        rw [hout _ (Or.inl (by omega))]
        have := hina x hx
        simp only [Nat.add_zero, Nat.mul_zero, Nat.zero_add] at this ⊢
        exact this
      | succ j =>
        have := hin j x (by omega) hx
        have m1 : W * (j + 1) = W * j + W := Nat.mul_succ W j
        have m2 : stride * (j + 1) = stride * j + stride := Nat.mul_succ stride j
        rw [show dp + W * (j + 1) + x = dp + W + W * j + x by omega,
          show so + stride * (j + 1) + x / 8 = so + stride + stride * j + x / 8 by omega]
        exact this

theorem wrapInt_of_range (v : Int) (hlo : -2 ^ 31 ≤ v) (hhi : v < 2 ^ 31) : wrapInt v = v := by
  unfold wrapInt
  omega

theorem pixel_bit (byte x : Nat) :
    ((byte >>> (7 - (x &&& 7))) &&& 1 ≠ 0) ↔ byte.testBit (7 - x % 8) = true := by
  rw [show x &&& 7 = x % 8 from Nat.and_pow_two_sub_one_eq_mod x 3]
  unfold Nat.testBit
  rw [Nat.and_comm]
  simp

theorem updateTexture_spec (s : State) (W H : Nat) (hW : s.WIDTH = (W : Int))
    (hH : s.HEIGHT = (H : Int)) (hbuf : (((W + 15) / 16 * 2 * H : Nat) : Int) ≤ s.buflen)
    (hpix : W * H ≤ PixelBufLen) :
    ∃ s1, updateTexture s = .ok s1 ∧
      ∀ x y, x < W → y < H →
        s1.pixelBuf (y * W + x) =
          if sourceBit s.buffer ((W + 15) / 16 * 2) x y then 0xFF000000 else 0xFFFFFFFF := by
  have hq : W ≤ 8 * ((W + 15) / 16 * 2) := by omega
  have hsw : (((s.WIDTH + 16 - 1).tdiv 16) * 16).tdiv 8 = (((W + 15) / 16 * 2 : Nat) : Int) := by
    rw [hW]
    have e : ((W : Int) + 16 - 1) = ((W + 15 : Nat) : Int) := by push_cast; ring
    rw [e, show (16 : Int) = ((16 : Nat) : Int) from rfl, ← Int.ofNat_tdiv,
      show (8 : Int) = ((8 : Nat) : Int) from rfl, ← Int.natCast_mul, ← Int.ofNat_tdiv]
    congr 1
    omega
  have hchk : ¬ s.buflen < (wrapInt (s.WIDTH * s.HEIGHT)).tdiv 8 := by
    rw [hW, hH, ← Int.natCast_mul, wrapInt_of_range _ (by omega) (by
        have : PixelBufLen = 1000000 := rfl
        omega),
      show (8 : Int) = ((8 : Nat) : Int) from rfl, ← Int.ofNat_tdiv]
    have h1 : W * H ≤ 8 * ((W + 15) / 16 * 2 * H) := by
      calc W * H ≤ 8 * ((W + 15) / 16 * 2) * H := Nat.mul_le_mul_right H hq
        _ = 8 * ((W + 15) / 16 * 2 * H) := by ring
    have h2 : W * H / 8 ≤ (W + 15) / 16 * 2 * H := by
      apply Nat.div_le_of_le_mul
      exact h1
    omega
  obtain ⟨pix1, hrun, _, hin⟩ := lineLoop_spec s.buffer s.buflen ((W + 15) / 16 * 2) W hq H 0 0
    s.pixelBuf (by simpa [Nat.mul_comm] using hbuf) (by omega)
  refine ⟨{ s with pixelBuf := pix1 }, ?_, ?_⟩
  · unfold updateTexture
    simp only []
    rw [if_neg hchk, hsw, hW, hH]
    have e4 : (W : Int) * 4 = ((4 * W : Nat) : Int) := by push_cast; ring
    rw [e4, Int.toNat_ofNat, Int.toNat_ofNat]
    have hrun' := hrun
    simp only [Nat.mul_zero, Nat.cast_zero] at hrun'
    rw [hrun']
  · intro x y hx hy
    have := hin y x hy hx
    simp only [Nat.zero_add] at this
    show pix1 (y * W + x) = _
    rw [Nat.mul_comm y W, this]
    unfold sourceBit
    rw [Nat.mul_comm y]
    by_cases hb : (s.buffer.getD ((W + 15) / 16 * 2 * y + x / 8) 0 >>> (7 - (x &&& 7))) &&& 1 ≠ 0
    · rw [if_pos hb, if_pos ((pixel_bit _ _).mp hb)]
    · rw [if_neg hb, if_neg (fun h => hb ((pixel_bit _ _).mpr h))]

/-! ## Lemmas on the substitution table -/

theorem toAltoUpper_high (ch : Nat) (h : 127 ≤ ch) : toAltoUpper ch = 0 := by
  unfold toAltoUpper
  have e : ∀ c : Nat, c ≤ 126 → ¬ ch = c := fun c hc heq => by omega
  rw [if_neg (e _ (by decide)), if_neg (e _ (by decide)), if_neg (e _ (by decide)),
    if_neg (e _ (by decide)), if_neg (e _ (by decide)), if_neg (e _ (by decide)),
    if_neg (e _ (by decide)), if_neg (e _ (by decide)), if_neg (e _ (by decide)),
    if_neg (e _ (by decide)), if_neg (e _ (by decide)), if_neg (e _ (by decide)),
    if_neg (e _ (by decide)), if_neg (e _ (by decide)), if_neg (e _ (by decide)),
    if_neg (e _ (by decide)), if_neg (e _ (by decide)), if_neg (e _ (by decide)),
    if_neg (e _ (by decide)), if_neg (e _ (by decide)),
    if_neg (fun hz => absurd hz.2 (by
      have : 'Z'.toNat = 90 := rfl
      omega))]

theorem toAltoUpper_range (ch : Nat) (h : toAltoUpper ch ≠ 0) : ch ≤ 126 := by
  by_contra hc
  exact h (toAltoUpper_high ch (by omega))

theorem toAltoUpper_facts (ch : Nat) (h : toAltoUpper ch ≠ 0) :
    isAltoLower ch = 0 ∧ isAltoLower (toAltoUpper ch) = 1 ∧ shiftedOf (toAltoUpper ch) = ch := by
  have hr := toAltoUpper_range ch h
  interval_cases ch <;> first | exact absurd rfl h | decide

/-! ## The claims -/

/-- C1: in a queue state with at least 4 free slots, a timestamped `postEvent`
of a postable type with any parameter `p` (so also every `p ≤ 4095`), at
clock value `now`, appends
exactly the `DeltaTime` word and the event word when the `uint32` difference
`now - lastEvent` is at most 4095, and otherwise exactly the `AbsoluteTime`
word, two 16 bit words `hi`, `lo` with `(hi << 16) | lo = now`, and the event
word; in both cases `lastEvent` becomes `now`. -/
theorem postEvent_appends_frame (clk : Nat → Nat) (s : State) (t : EventType) (p now : Nat)
    (hinv : RingInv s) (hfree : s.count + 4 ≤ QueueLen)
    (ht : t = .XLocation ∨ t = .YLocation ∨ t = .BiStateOn ∨ t = .BiStateOff)
    (hnow : now < 2 ^ 32) (hclk : clk s.reads = now) :
    ∃ s1, postEvent clk t p 1 s = .ok (1, s1) ∧ s1.lastEvent = now ∧
      if (now + 2 ^ 32 - s.lastEvent) % 2 ^ 32 ≤ 4095 then
        contents s1 = contents s ++
          [compose EventType.DeltaTime.code ((now + 2 ^ 32 - s.lastEvent) % 2 ^ 32),
            compose t.code p]
      else
        ∃ hi lo, hi < 2 ^ 16 ∧ lo < 2 ^ 16 ∧ (hi <<< 16) ||| lo = now ∧
          contents s1 = contents s ++
            [compose EventType.AbsoluteTime.code 0, hi, lo, compose t.code p] := by
  have hmod : clk s.reads % 2 ^ 32 = now := by rw [hclk]; exact Nat.mod_eq_of_lt hnow
  have htp : postable t = true := by
    rcases ht with h | h | h | h <;> subst h <;> rfl
  have hlen : (timeWords now s.lastEvent).length ≤ 3 := by
    unfold timeWords
    split <;> simp
  obtain ⟨s1, hpost, _, hlast, hcont⟩ := postEvent_spec clk t p s htp hinv
    (by rw [hmod]; omega)
  rw [hmod] at hlast hcont
  refine ⟨s1, hpost, hlast, ?_⟩
  unfold timeWords at hcont
  split
  · rename_i hd
    have hd' : (now + 2 ^ 32 - s.lastEvent) % 2 ^ 32 ≤ MaxPos := hd
    rw [if_pos hd'] at hcont
    simpa using hcont
  · rename_i hd
    have hd' : ¬ (now + 2 ^ 32 - s.lastEvent) % 2 ^ 32 ≤ MaxPos := hd
    rw [if_neg hd'] at hcont
    refine ⟨(now >>> 16) &&& 0xffff, now &&& 0xffff, ?_, ?_, recombine now hnow, ?_⟩
    · rw [and_ffff]; omega
    · rw [and_ffff]; omega
    · simpa using hcont

/-- Witness of C1 on the empty queue: 5000 ms after start the time does not
fit 12 bits and the `AbsoluteTime` frame is appended. -/
theorem postEvent_appends_frame_witness :
    ∃ s1, postEvent (fun _ => 5000) .BiStateOn 8 1 init = .ok (1, s1) ∧ s1.lastEvent = 5000 ∧
      if (5000 + 2 ^ 32 - init.lastEvent) % 2 ^ 32 ≤ 4095 then
        contents s1 = contents init ++
          [compose EventType.DeltaTime.code ((5000 + 2 ^ 32 - init.lastEvent) % 2 ^ 32),
            compose EventType.BiStateOn.code 8]
      else
        ∃ hi lo, hi < 2 ^ 16 ∧ lo < 2 ^ 16 ∧ (hi <<< 16) ||| lo = 5000 ∧
          contents s1 = contents init ++
            [compose EventType.AbsoluteTime.code 0, hi, lo, compose EventType.BiStateOn.code 8] :=
  postEvent_appends_frame (fun _ => 5000) init .BiStateOn 8 5000 (by decide) (by decide)
    (Or.inr (Or.inr (Or.inl rfl))) (by decide) rfl

/-- C2, as the code has it: starting from the empty queue, after any sequence
of timestamped `postEvent` calls with 12 bit parameters and takes of whole
frames in which no word is dropped (every post finds room for its time words
and its event word), the queue read from tail to head is a concatenation of
complete frames. -/
theorem frames_complete_without_overflow (clk : Nat → Nat) (ops : List Op)
    (h : roomy clk ops init = true) :
    ∃ s, runOps clk ops init = .ok s ∧ framed (contents s) = true := by
  obtain ⟨s, hrun, _, hf⟩ := runOps_framed clk ops init ringInv_init (by decide) h
  exact ⟨s, hrun, hf⟩

/-- Witness of C2 (amended): two key events and a pointer move, with two
frames taken in between. -/
theorem frames_complete_without_overflow_witness :
    ∃ s, runOps lateClock smallOps init = .ok s ∧ framed (contents s) = true :=
  frames_complete_without_overflow lateClock smallOps (by decide)

set_option maxRecDepth 100000 in
/-- C2 as stated fails once the capacity is exceeded: 49 posts with a
`DeltaTime` frame fill 98 slots, the 50th post needs an `AbsoluteTime` frame
of four words, of which only the `AbsoluteTime` word and the high word are
enqueued.  The queue is full and ends in an incomplete frame. -/
theorem frames_torn_by_overflow :
    (runOps lateClock overflowOps init).toOption.map
        (fun s => (s.count, framed (contents s), (contents s).drop 96))
      = some (100, false, [0x0000, 0x3008, 0x5000, 0x0000]) := by
  decide

/-- A parameter wider than 12 bits spoils the type nibble of the event word:
`BiStateOff` with parameter `0x1000` is enqueued as `0x5000`, which reads as
an `AbsoluteTime` word. -/
theorem wide_param_spoils_tag :
    (runOps lateClock [.post .BiStateOff 0x1000] init).toOption.map
        (fun s => (contents s, framed (contents s)))
      = some ([0x0000, 0x5000], false) := by
  decide

/-- C3 fails on the code: a key-up event (`state = SDL_RELEASED`) of the
backspace key makes `PAL2_processEvents` enqueue `BiStateOn(8)`, the word
`0x3008`, not `BiStateOff(8)`, the word `0x4008`: the dispatch passes the
constant 1 to `keyEvent` in place of `down`. -/
theorem key_up_posts_BiStateOn :
    (PAL2_processEvents (fun _ => 0) 0 (some (.key 0 SDLK_BACKSPACE 0)) smallSession).toOption.map
        (fun r => (r.1, contents r.2))
      = some (2, [compose EventType.DeltaTime.code 0, compose EventType.BiStateOn.code 8]) ∧
    compose EventType.BiStateOn.code 8 = 0x3008 ∧ compose EventType.BiStateOff.code 8 = 0x4008 := by
  decide

/-- C4, as the code has it: `compose` does not mask.  For a tag `t ≤ 5` and a
parameter `p ≤ 4095` the word is `(t << 12) | (p & 0xFFF)` and its type
nibble is `t`; for every 16 bit `q` the word is `(t << 12) | q`, unmasked. -/
theorem compose_twelve_bit (t p : Nat) (ht : t ≤ 5) (hp : p ≤ 4095) :
    compose t p = (t <<< 12) ||| (p &&& 0xFFF) ∧ tag (compose t p) = t ∧
      ∀ q, q < 2 ^ 16 → compose t q = (t <<< 12) ||| q := by
  refine ⟨?_, ?_, fun q hq => compose_unmasked t q ht hq⟩
  · rw [and_fff, Nat.mod_eq_of_lt (by omega), compose_eq_add t p (by omega) hp,
      shl_or 12 t p (by omega)]
    norm_num
  · rw [compose_eq_add t p (by omega) hp, tag_add t p hp]

/-- Witness of C4 (amended) at `BiStateOff` with parameter 139. -/
theorem compose_twelve_bit_witness :
    compose 4 139 = (4 <<< 12) ||| (139 &&& 0xFFF) ∧ tag (compose 4 139) = 4 ∧
      ∀ q, q < 2 ^ 16 → compose 4 q = (4 <<< 12) ||| q :=
  compose_twelve_bit 4 139 (by decide) (by decide)

/-- C4 as stated fails: for `XLocation` and the 16 bit parameter `0x2000` the
code returns `0x3000`, whose type nibble is 3 (`BiStateOn`), while the masked
formula gives `0x1000`. -/
theorem compose_does_not_mask :
    compose EventType.XLocation.code 0x2000 = 0x3000 ∧
      (EventType.XLocation.code <<< 12) ||| (0x2000 &&& 0xFFF) = 0x1000 ∧
      tag (compose EventType.XLocation.code 0x2000) = EventType.BiStateOn.code := by
  decide

/-- C5: for a postable type and a parameter in `[0, 4095]`, decomposing the
composed word as `(word >> 12, word & 0xFFF)` gives back type and parameter. -/
theorem decompose_compose (t : EventType) (p : Nat)
    (ht : t = .XLocation ∨ t = .YLocation ∨ t = .BiStateOn ∨ t = .BiStateOff)
    (hp : p ≤ 4095) :
    decompose (compose t.code p) = (t.code, p) := by
  have htc : t.code ≤ 5 := by
    rcases ht with h | h | h | h <;> subst h <;> decide
  have htag := tag_add t.code p hp
  unfold tag at htag
  unfold decompose
  rw [compose_eq_add t.code p (by omega) hp, htag, and_fff]
  congr 1
  omega

/-- Witness of C5 at `YLocation` with the largest parameter. -/
theorem decompose_compose_witness :
    decompose (compose EventType.YLocation.code 4095) = (EventType.YLocation.code, 4095) :=
  decompose_compose .YLocation 4095 (Or.inr (Or.inl rfl)) (by decide)

/-- C6: the ring buffer refines the bounded FIFO of capacity 100.  The relation
`Refines` (indices in range, `count ≤ 100`, `head = (tail + count) mod 100`,
list = the `count` entries from `tail`) holds initially, is preserved by
`enqueue` against "append when fewer than 100 entries" and by `dequeue`
against "remove and return the front entry, or return 0 when empty", and so
any run of queue operations dequeues the same words as the FIFO does. -/
theorem ring_refines_fifo (s : State) (l : List Nat) (w : Nat) (ops : List QOp)
    (h : Refines s l) :
    Refines init [] ∧
      Refines (enqueue w s) (fifoEnqueue l w) ∧
      Refines (dequeue s).2 (fifoDequeue l).2 ∧ (dequeue s).1 = (fifoDequeue l).1 ∧
      (runQ ops s).1 = (runFifo ops l).1 ∧ Refines (runQ ops s).2 (runFifo ops l).2 ∧
      (runQ ops init).1 = (runFifo ops []).1 :=
  ⟨⟨ringInv_init, contents_init⟩, refines_enqueue w s l h, (refines_dequeue s l h).1,
    (refines_dequeue s l h).2, (refines_run ops s l h).1, (refines_run ops s l h).2,
    (refines_run ops init [] ⟨ringInv_init, contents_init⟩).1⟩

/-- Witness of C6: from the empty queue, enqueue 7 and 9, dequeue twice and
once more on the empty queue. -/
theorem ring_refines_fifo_witness :
    Refines init [] ∧
      Refines (enqueue 7 init) (fifoEnqueue [] 7) ∧
      Refines (dequeue init).2 (fifoDequeue []).2 ∧ (dequeue init).1 = (fifoDequeue []).1 ∧
      (runQ [.enq 7, .enq 9, .deq, .deq, .deq] init).1
        = (runFifo [.enq 7, .enq 9, .deq, .deq, .deq] []).1 ∧
      Refines (runQ [.enq 7, .enq 9, .deq, .deq, .deq] init).2
        (runFifo [.enq 7, .enq 9, .deq, .deq, .deq] []).2 ∧
      (runQ [.enq 7, .enq 9, .deq, .deq, .deq] init).1
        = (runFifo [.enq 7, .enq 9, .deq, .deq, .deq] []).1 :=
  ring_refines_fifo init [] 7 [.enq 7, .enq 9, .deq, .deq, .deq] ⟨by decide, rfl⟩

/-- C7: on a full queue `enqueue` changes nothing (the word is dropped), and
`count` never exceeds 100 after any sequence of `enqueue` and `dequeue` calls,
from program start as well as from the full state. -/
theorem enqueue_full_drops (s : State) (w : Nat) (ops : List QOp) (hfull : s.count = QueueLen) :
    enqueue w s = s ∧ (runQ ops init).2.count ≤ QueueLen ∧ (runQ ops s).2.count ≤ QueueLen :=
  ⟨enqueue_full w s hfull, runQ_count_le ops init (by decide),
    runQ_count_le ops s (Nat.le_of_eq hfull)⟩

/-- Witness of C7: a queue holding 100 words. -/
theorem enqueue_full_drops_witness :
    enqueue 5 fullQueue = fullQueue ∧
      (runQ [.enq 1, .deq, .enq 2] init).2.count ≤ QueueLen ∧
      (runQ [.enq 1, .deq, .enq 2] fullQueue).2.count ≤ QueueLen :=
  enqueue_full_drops fullQueue 5 [.enq 1, .deq, .enq 2] (by decide)

/-- C8: on an empty queue `dequeue`, and so `PAL2_nextEvent`, returns 0 and
leaves the whole state (queue array, `head`, `tail`, `count`) unchanged. -/
theorem dequeue_empty (s : State) (h : s.count = 0) :
    dequeue s = (0, s) ∧ PAL2_nextEvent s = (0, s) := by
  simp [PAL2_nextEvent, dequeue, h]

/-- Witness of C8 on the initial state. -/
theorem dequeue_empty_witness : dequeue init = (0, init) ∧ PAL2_nextEvent init = (0, init) :=
  dequeue_empty init (by decide)

set_option maxRecDepth 1000000 in
/-- C9 fails on the code: with `WIDTH = HEIGHT = 100` and `buflen = 1250` the
length check passes (`1250 ≥ 100*100/8`), yet the conversion stops on its own
bounds assertion: the source line is 14 bytes wide, so line 89 already reads
byte `89*14 + 4 = 1250`. -/
theorem length_check_too_weak :
    ¬ (tightSession.buflen < (tightSession.WIDTH * tightSession.HEIGHT).tdiv 8) ∧
      faultOf (updateTexture tightSession) = some Fault.assertFailed := by
  decide

/-- C10 fails on the code: the text input `ġ` (U+0121, bytes `C4 A1`) decodes
to the code point `0x121`, which is no printable ASCII character; passed to the
`char` parameter of `keyEvent` it becomes `0x21`, and the dispatch enqueues
shift down and `BiStateOn` of the key `1`, with `keyEvent` returning 1. -/
theorem non_ascii_text_posts_event :
    decodeUtf8char [0xC4, 0xA1] = 0x121 ∧
    (keyEvent (fun _ => 0) 0 (toChar (decodeUtf8char [0xC4, 0xA1])) 1 init).toOption.map
        (fun r => (r.1, contents r.2))
      = some (1, [0x0000, compose EventType.BiStateOn.code 136,
          0x0000, compose EventType.BiStateOn.code '1'.toNat]) ∧
    (dispatch (fun _ => 0) (.textInput [0xC4, 0xA1]) init).toOption.map
        (fun r => r.map contents)
      = some (some [0x0000, 0x3088, 0x0000, 0x3031]) := by
  decide

/-- C11, as the code has it: every printable ASCII character that is not in
the no-shift class, other than `^` (0x5E) and the backquote (0x60), has a
non-zero base key in `toAltoUpper`, and `keyEvent(0, ch, down)` returns 1 and
appends whole frames whose event words are the character event of the base
key with the shift transition it requires: shift down before the press, shift
up after the release, each only while the shift flag is not set.  For 0x5E
and 0x60 the table has no entry. -/
theorem shift_class_posts (clk : Nat → Nat) (s : State) (ch : Nat) (down : Int)
    (hlo : 0x21 ≤ ch) (hhi : ch ≤ 0x7E) (hlow : isAltoLower ch = 0)
    (h1 : ch ≠ 0x5E) (h2 : ch ≠ 0x60)
    (hinv : RingInv s) (hroom : s.count + 8 ≤ QueueLen) :
    toAltoUpper ch ≠ 0 ∧ toAltoUpper 0x5E = 0 ∧ toAltoUpper 0x60 = 0 ∧
    ∃ s1 suffix, keyEvent clk 0 ch down s = .ok (1, s1) ∧
      contents s1 = contents s ++ suffix ∧ framed suffix = true ∧
      eventsOf .time suffix =
        if down ≠ 0 then
          (if s.shiftDown = 0 then [compose EventType.BiStateOn.code 136] else []) ++
            [compose EventType.BiStateOn.code (toAltoUpper ch)]
        else
          [compose EventType.BiStateOff.code (toAltoUpper ch)] ++
            (if s.shiftDown = 0 then [compose EventType.BiStateOff.code 136] else []) := by
  have hup := shift_class ch hlo hhi hlow h1 h2
  refine ⟨hup, by decide, by decide, ?_⟩
  obtain ⟨s1, hce, _, _, _, suffix, hc, hf, he⟩ :=
    posts_charEvent clk (toAltoUpper ch) down 1 s (toAltoUpper_le ch hlo hhi) hinv hroom
  refine ⟨s1, suffix, ?_, hc, hf, ?_⟩
  · rw [keyEvent_shift_class clk ch down s hlo hhi hlow hup, hce]
  · rw [he]
    by_cases hd : down = 0 <;> by_cases hs : s.shiftDown = 0 <;> simp [shiftWords, hd, hs]

/-- Witness of C11 (amended): `+` pressed on the empty queue. -/
theorem shift_class_posts_witness :
    toAltoUpper 0x2B ≠ 0 ∧ toAltoUpper 0x5E = 0 ∧ toAltoUpper 0x60 = 0 ∧
    ∃ s1 suffix, keyEvent (fun _ => 0) 0 0x2B 1 init = .ok (1, s1) ∧
      contents s1 = contents init ++ suffix ∧ framed suffix = true ∧
      eventsOf .time suffix =
        if (1 : Int) ≠ 0 then
          (if init.shiftDown = 0 then [compose EventType.BiStateOn.code 136] else []) ++
            [compose EventType.BiStateOn.code (toAltoUpper 0x2B)]
        else
          [compose EventType.BiStateOff.code (toAltoUpper 0x2B)] ++
            (if init.shiftDown = 0 then [compose EventType.BiStateOff.code 136] else []) :=
  shift_class_posts (fun _ => 0) init 0x2B 1 (by decide) (by decide) (by decide) (by decide)
    (by decide) (by decide) (by decide)

/-- C11 as stated fails: `^` (0x5E) is printable and not in the no-shift
class, yet `toAltoUpper` maps it to 0 and `keyEvent` returns 0 without
enqueueing anything. -/
theorem caret_has_no_base_key :
    0x21 ≤ 0x5E ∧ 0x5E ≤ 0x7E ∧ isAltoLower 0x5E = 0 ∧ toAltoUpper 0x5E = 0 ∧
      (keyEvent (fun _ => 0) 0 0x5E 1 init).toOption.map (fun r => (r.1, contents r.2))
        = some (0, []) := by
  decide

/-- C12: for a shift-class character with base key `b`, with the shift flag
not set and room for four frames, `keyEvent(0, ch, 1)` followed by
`keyEvent(0, ch, 0)` appends whole frames whose event words are, in this
order, `BiStateOn(136)`, `BiStateOn(b)`, `BiStateOff(b)`, `BiStateOff(136)`. -/
theorem shifted_key_cycle (clk : Nat → Nat) (s : State) (ch : Nat)
    (hlo : 0x21 ≤ ch) (hhi : ch ≤ 0x7E) (hlow : isAltoLower ch = 0)
    (hup : toAltoUpper ch ≠ 0) (hshift : s.shiftDown = 0)
    (hinv : RingInv s) (hroom : s.count + 16 ≤ QueueLen) :
    ∃ s1 s2 suffix, keyEvent clk 0 ch 1 s = .ok (1, s1) ∧
      keyEvent clk 0 ch 0 s1 = .ok (1, s2) ∧
      contents s2 = contents s ++ suffix ∧ framed suffix = true ∧
      eventsOf .time suffix =
        [compose EventType.BiStateOn.code 136, compose EventType.BiStateOn.code (toAltoUpper ch),
          compose EventType.BiStateOff.code (toAltoUpper ch),
          compose EventType.BiStateOff.code 136] := by
  have hb := toAltoUpper_le ch hlo hhi
  obtain ⟨s1, hk1, hp1⟩ := posts_charEvent clk (toAltoUpper ch) 1 1 s hb hinv (by omega)
  have hlen1 : s1.count ≤ s.count + 8 := by
    have := hp1.2.2.1
    simp [shiftWords, hshift] at this
    omega
  obtain ⟨s2, hk2, hp2⟩ := posts_charEvent clk (toAltoUpper ch) 0 1 s1 hb hp1.1 (by omega)
  obtain ⟨_, _, _, suffix, hc, hf, he⟩ := posts_trans s s1 s2 _ _ hp1 hp2
  refine ⟨s1, s2, suffix, ?_, ?_, hc, hf, ?_⟩
  · rw [keyEvent_shift_class clk ch 1 s hlo hhi hlow hup, hk1]
  · rw [keyEvent_shift_class clk ch 0 s1 hlo hhi hlow hup, hk2]
  · rw [he, hp1.2.1, hshift]
    simp [shiftWords]

/-- Witness of C12: `A` typed on the empty queue. -/
theorem shifted_key_cycle_witness :
    ∃ s1 s2 suffix, keyEvent (fun _ => 0) 0 0x41 1 init = .ok (1, s1) ∧
      keyEvent (fun _ => 0) 0 0x41 0 s1 = .ok (1, s2) ∧
      contents s2 = contents init ++ suffix ∧ framed suffix = true ∧
      eventsOf .time suffix =
        [compose EventType.BiStateOn.code 136, compose EventType.BiStateOn.code (toAltoUpper 0x41),
          compose EventType.BiStateOff.code (toAltoUpper 0x41),
          compose EventType.BiStateOff.code 136] :=
  shifted_key_cycle (fun _ => 0) init 0x41 (by decide) (by decide) (by decide) (by decide)
    (by decide) (by decide) (by decide)

/-- C16: for a control or navigation key with target code `code` (8, 9, 13,
27, 32, 127, 136, 138, 139, 95, 94), every `ch` and every `down`, with room
in the queue, `keyEvent` returns 1 and appends exactly one frame: the time
words and `compose(down ? BiStateOn : BiStateOff, code)`.  A shift, ctrl or
capslock key sets its modifier flag to `down`; for every key code at all, all
other modifier flags keep their value. -/
theorem control_key_posts (clk : Nat → Nat) (keyCode : Int) (ch : Nat) (down : Int) (s : State)
    (code : Nat) (hkey : controlKeyCode keyCode = some code)
    (hinv : RingInv s) (hroom : s.count + 4 ≤ QueueLen) :
    (∃ s1, keyEvent clk keyCode ch down s = .ok (1, s1) ∧
      contents s1 = contents s ++ frame (clk s.reads % 2 ^ 32) s.lastEvent
        (if down ≠ 0 then .BiStateOn else .BiStateOff) code) ∧
    (∀ (k : Int) (c : Nat) (d : Int), ∃ r s1, keyEvent clk k c d s = .ok (r, s1) ∧
      s1.shiftDown = (if k = SDLK_LSHIFT ∨ k = SDLK_RSHIFT then d else s.shiftDown) ∧
      s1.ctrlDown = (if k = SDLK_LCTRL ∨ k = SDLK_RCTRL then d else s.ctrlDown) ∧
      s1.capsLockDown = (if k = SDLK_CAPSLOCK then d else s.capsLockDown)) ∧
    controlKeyCode SDLK_BACKSPACE = some 8 ∧ controlKeyCode SDLK_TAB = some 9 ∧
    controlKeyCode SDLK_RETURN = some 13 ∧ controlKeyCode SDLK_ESCAPE = some 27 ∧
    controlKeyCode SDLK_SPACE = some 32 ∧ controlKeyCode SDLK_DELETE = some 127 ∧
    controlKeyCode SDLK_LSHIFT = some 136 ∧ controlKeyCode SDLK_RSHIFT = some 136 ∧
    controlKeyCode SDLK_LCTRL = some 138 ∧ controlKeyCode SDLK_RCTRL = some 138 ∧
    controlKeyCode SDLK_CAPSLOCK = some 139 ∧ controlKeyCode SDLK_LEFT = some 95 ∧
    controlKeyCode SDLK_UP = some 94 := by
  refine ⟨?_, fun k c d => keyEvent_flags clk k c d s, by decide, by decide, by decide,
    by decide, by decide, by decide, by decide, by decide, by decide, by decide, by decide,
    by decide, by decide⟩
  obtain ⟨s1, hp, _, _, _, _, _, _, _, _, _, hc⟩ := postEvent_room clk
    (if down ≠ 0 then .BiStateOn else .BiStateOff) code
    { s with
      shiftDown := if keyCode = SDLK_LSHIFT ∨ keyCode = SDLK_RSHIFT then down else s.shiftDown
      ctrlDown := if keyCode = SDLK_LCTRL ∨ keyCode = SDLK_RCTRL then down else s.ctrlDown
      capsLockDown := if keyCode = SDLK_CAPSLOCK then down else s.capsLockDown }
    (postable_of_down down) hinv hroom
  exact ⟨s1, by rw [keyEvent_control clk keyCode ch down s code hkey, hp], hc⟩

/-- Witness of C16: the left shift key released on the empty queue. -/
theorem control_key_posts_witness :
    ∃ s1, keyEvent (fun _ => 0) SDLK_LSHIFT 0 0 init = .ok (1, s1) ∧
      contents s1 = contents init ++ frame ((fun _ => 0) init.reads % 2 ^ 32) init.lastEvent
        (if (0 : Int) ≠ 0 then .BiStateOn else .BiStateOff) 136 :=
  (control_key_posts (fun _ => 0) SDLK_LSHIFT 0 0 init 136 (by decide) (by decide)
    (by decide)).1

/-- C17: when `buflen` covers the padded geometry (`ceil(WIDTH/16)*2*HEIGHT`
bytes) and `WIDTH*HEIGHT` pixels fit the scratch array, `updateTexture`
succeeds and for all `x < WIDTH`, `y < HEIGHT` the destination pixel
`y*WIDTH + x` is `0xFF000000` if bit `7 - (x mod 8)` of source byte
`y*stride + x/8` is 1, else `0xFFFFFFFF`, with `stride = ceil(WIDTH/16)*2`;
so a source of all `0xFF` bytes gives an all `0xFF000000` surface and a source
of all zero bytes an all `0xFFFFFFFF` surface. -/
theorem updateTexture_converts (s : State) (W H : Nat) (hW : s.WIDTH = (W : Int))
    (hH : s.HEIGHT = (H : Int)) (hbuf : (((W + 15) / 16 * 2 * H : Nat) : Int) ≤ s.buflen)
    (hpix : W * H ≤ PixelBufLen) :
    ∃ s1, updateTexture s = .ok s1 ∧
      (∀ x y, x < W → y < H →
        s1.pixelBuf (y * W + x) =
          if sourceBit s.buffer ((W + 15) / 16 * 2) x y then 0xFF000000 else 0xFFFFFFFF) ∧
      ((∀ i, i < (W + 15) / 16 * 2 * H → s.buffer.getD i 0 = 0xFF) →
        ∀ x y, x < W → y < H → s1.pixelBuf (y * W + x) = 0xFF000000) ∧
      ((∀ i, i < (W + 15) / 16 * 2 * H → s.buffer.getD i 0 = 0) →
        ∀ x y, x < W → y < H → s1.pixelBuf (y * W + x) = 0xFFFFFFFF) := by
  obtain ⟨s1, hrun, hpixel⟩ := updateTexture_spec s W H hW hH hbuf hpix
  have hidx : ∀ x y, x < W → y < H →
      y * ((W + 15) / 16 * 2) + x / 8 < (W + 15) / 16 * 2 * H := by
    intro x y hx hy
    have h1 : x / 8 < (W + 15) / 16 * 2 := by omega
    have h2 : (y + 1) * ((W + 15) / 16 * 2) ≤ H * ((W + 15) / 16 * 2) :=
      Nat.mul_le_mul_right _ hy
    rw [Nat.succ_mul] at h2
    rw [Nat.mul_comm ((W + 15) / 16 * 2) H]
    omega
  refine ⟨s1, hrun, hpixel, ?_, ?_⟩
  · intro hall x y hx hy
    rw [hpixel x y hx hy]
    unfold sourceBit
    rw [hall _ (hidx x y hx hy)]
    have hk : 7 - x % 8 ≤ 7 := Nat.sub_le _ _
    have : Nat.testBit 0xFF (7 - x % 8) = true := by
      generalize 7 - x % 8 = k at hk
      interval_cases k <;> decide
    rw [if_pos this]
  · intro hall x y hx hy
    rw [hpixel x y hx hy]
    unfold sourceBit
    rw [hall _ (hidx x y hx hy), Nat.zero_testBit]
    simp

/-- Witness of C17: 16 by 2 pixels on the four byte buffer `A5 0F FF 00`. -/
theorem updateTexture_converts_witness :
    ∃ s1, updateTexture twoLineSession = .ok s1 ∧
      (∀ x y, x < 16 → y < 2 →
        s1.pixelBuf (y * 16 + x) =
          if sourceBit twoLineSession.buffer ((16 + 15) / 16 * 2) x y then 0xFF000000
          else 0xFFFFFFFF) ∧
      ((∀ i, i < (16 + 15) / 16 * 2 * 2 → twoLineSession.buffer.getD i 0 = 0xFF) →
        ∀ x y, x < 16 → y < 2 → s1.pixelBuf (y * 16 + x) = 0xFF000000) ∧
      ((∀ i, i < (16 + 15) / 16 * 2 * 2 → twoLineSession.buffer.getD i 0 = 0) →
        ∀ x y, x < 16 → y < 2 → s1.pixelBuf (y * 16 + x) = 0xFFFFFFFF) :=
  updateTexture_converts twoLineSession 16 2 (by decide) (by decide) (by decide) (by decide)

/-- C19: `decodeUtf8char` gives back every code point up to `0x7FF` from its
standard UTF-8 encoding (one byte up to `0x7F`, two bytes above), and returns
0 for every byte string that starts with a continuation byte (`0x80..0xBF`)
or with the lead byte of a longer sequence (`0xE0` and above). -/
theorem decodeUtf8char_roundtrip (cp : Nat) (hcp : cp ≤ 0x7FF) :
    decodeUtf8char (encodeUtf8 cp) = (cp : Int) ∧
      (∀ (b : Nat) (rest : List Nat), (0x80 ≤ b ∧ b ≤ 0xBF) ∨ 0xE0 ≤ b →
        decodeUtf8char (b :: rest) = 0) := by
  constructor
  · unfold encodeUtf8
    by_cases h : cp ≤ 0x7F
    · rw [if_pos h]
      unfold decodeUtf8char
      simp only [List.getD_cons_zero]
      rw [if_pos h]
    · rw [if_neg h]
      have hq : cp >>> 6 < 2 ^ 5 := by
        rw [Nat.shiftRight_eq_div_pow]; omega
      have hr : cp &&& 0x3F < 2 ^ 6 := by
        rw [Nat.and_pow_two_sub_one_eq_mod cp 6]; omega
      have hlead : 0xC0 ||| (cp >>> 6) = 6 * 2 ^ 5 + cp >>> 6 := by
        rw [← shl_or 5 6 _ hq]; rfl
      have hcont : 0x80 ||| (cp &&& 0x3F) = 2 * 2 ^ 6 + (cp &&& 0x3F) := by
        rw [← shl_or 6 2 _ hr]; rfl
      have hq2 : 2 ≤ cp >>> 6 := by
        rw [Nat.shiftRight_eq_div_pow]; omega
      unfold decodeUtf8char
      simp only [List.getD_cons_zero, List.getD_cons_succ]
      rw [hlead, hcont, if_neg (by omega), if_pos (by omega)]
      have e1 : (6 * 2 ^ 5 + cp >>> 6) &&& 0x1f = cp >>> 6 := by
        rw [Nat.and_pow_two_sub_one_eq_mod _ 5]; omega
      have e2 : (2 * 2 ^ 6 + (cp &&& 0x3F)) &&& 0x3f = cp &&& 0x3F := by
        rw [Nat.and_pow_two_sub_one_eq_mod _ 6]; omega
      rw [e1, e2, shl_or 6 _ _ hr, Nat.shiftRight_eq_div_pow,
        Nat.and_pow_two_sub_one_eq_mod cp 6]
      congr 1
      omega
  · intro b rest hb
    unfold decodeUtf8char
    simp only [List.getD_cons_zero]
    rcases hb with ⟨h1, h2⟩ | h1
    · rw [if_neg (by omega), if_neg (by omega)]
    · rw [if_neg (by omega), if_neg (by omega)]

/-- Witness of C19: U+00E9, encoded as `C3 A9`. -/
theorem decodeUtf8char_roundtrip_witness :
    decodeUtf8char (encodeUtf8 0xE9) = ((0xE9 : Nat) : Int) ∧
      (∀ (b : Nat) (rest : List Nat), (0x80 ≤ b ∧ b ≤ 0xBF) ∨ 0xE0 ≤ b →
        decodeUtf8char (b :: rest) = 0) :=
  decodeUtf8char_roundtrip 0xE9 (by decide)

/-- C20: whatever room the queue has, a timestamped `postEvent` returns 1 and
appends a prefix of the intended frame, as many of its words as there are
free slots: either the whole frame, or only time words of it, so the event
word is enqueued only after all its time words; `lastEvent` becomes the clock
value even when words are dropped. -/
theorem postEvent_appends_prefix (clk : Nat → Nat) (t : EventType) (p : Nat) (s : State)
    (ht : t = .XLocation ∨ t = .YLocation ∨ t = .BiStateOn ∨ t = .BiStateOff)
    (hinv : RingInv s) :
    ∃ s1 appended, postEvent clk t p 1 s = .ok (1, s1) ∧
      contents s1 = contents s ++ appended ∧
      appended <+: frame (clk s.reads % 2 ^ 32) s.lastEvent t p ∧
      appended.length =
        min (QueueLen - s.count) (frame (clk s.reads % 2 ^ 32) s.lastEvent t p).length ∧
      (appended = frame (clk s.reads % 2 ^ 32) s.lastEvent t p ∨
        appended <+: timeWords (clk s.reads % 2 ^ 32) s.lastEvent) ∧
      s1.lastEvent = clk s.reads % 2 ^ 32 := by
  have htp : postable t = true := by
    rcases ht with h | h | h | h <;> subst h <;> rfl
  obtain ⟨s1, hp, _, hl, _, _, _, _, _, _, _, hc⟩ := postEvent_step clk t p s htp hinv
  refine ⟨s1, _, hp, hc, List.take_prefix _ _, ?_, ?_, hl⟩
  · rw [List.length_take]
  · by_cases hk : (frame (clk s.reads % 2 ^ 32) s.lastEvent t p).length ≤ QueueLen - s.count
    · exact Or.inl (List.take_of_length_le hk)
    · right
      have hlen : (frame (clk s.reads % 2 ^ 32) s.lastEvent t p).length
          = (timeWords (clk s.reads % 2 ^ 32) s.lastEvent).length + 1 := by
        simp [frame]
      unfold frame
      rw [List.take_append_of_le_length (by omega)]
      exact List.take_prefix _ _

/-- Witness of C20: a queue holding 99 words, posting 5000 ms after the last
event: of the four words of the frame only the `AbsoluteTime` word gets in. -/
theorem postEvent_appends_prefix_witness :
    ∃ s1 appended, postEvent (fun _ => 5000) .BiStateOn 8 1 nearlyFull = .ok (1, s1) ∧
      contents s1 = contents nearlyFull ++ appended ∧
      appended <+: frame ((fun _ => 5000) nearlyFull.reads % 2 ^ 32) nearlyFull.lastEvent
        .BiStateOn 8 ∧
      appended.length =
        min (QueueLen - nearlyFull.count)
          (frame ((fun _ => 5000) nearlyFull.reads % 2 ^ 32) nearlyFull.lastEvent
            .BiStateOn 8).length ∧
      (appended = frame ((fun _ => 5000) nearlyFull.reads % 2 ^ 32) nearlyFull.lastEvent
          .BiStateOn 8 ∨
        appended <+: timeWords ((fun _ => 5000) nearlyFull.reads % 2 ^ 32)
          nearlyFull.lastEvent) ∧
      s1.lastEvent = (fun _ => 5000) nearlyFull.reads % 2 ^ 32 :=
  postEvent_appends_prefix (fun _ => 5000) .BiStateOn 8 nearlyFull
    (Or.inr (Or.inr (Or.inl rfl))) (by decide)

/-- C21: the substitution table maps the shift class injectively into the
no-shift class: a character with a non-zero image under `toAltoUpper` is not
itself in the no-shift class, its image is, and two distinct characters with
non-zero images have distinct images. -/
theorem toAltoUpper_injective (c1 c2 : Nat) (h1 : toAltoUpper c1 ≠ 0)
    (h2 : toAltoUpper c2 ≠ 0) (hne : c1 ≠ c2) :
    isAltoLower c1 = 0 ∧ isAltoLower (toAltoUpper c1) = 1 ∧
      toAltoUpper c1 ≠ toAltoUpper c2 := by
  obtain ⟨ha, hb, hc⟩ := toAltoUpper_facts c1 h1
  obtain ⟨_, _, hd⟩ := toAltoUpper_facts c2 h2
  refine ⟨ha, hb, fun heq => hne ?_⟩
  rw [← hc, ← hd, heq]

/-- Witness of C21: `+` and `A`, with images `=` and `a`. -/
theorem toAltoUpper_injective_witness :
    isAltoLower 0x2B = 0 ∧ isAltoLower (toAltoUpper 0x2B) = 1 ∧
      toAltoUpper 0x2B ≠ toAltoUpper 0x41 :=
  toAltoUpper_injective 0x2B 0x41 (by decide) (by decide) (by decide)

end LnPAL2
